import Mathlib

/-!
# Verification of the authentik `ConfigLoader`

Shallow embedding of `src/authentik/lib/config.py` (the layered configuration
loader) and proofs about it.

Modelling conventions:

* Python dictionaries are association lists `List (String × PyVal)` in
  insertion order; assignment to an existing key replaces the entry in place,
  assignment to a fresh key appends at the end, exactly as CPython dicts
  behave.  Python dicts never hold duplicate keys, which appears here as the
  decidable `nodupKeysRec` side condition on trees given from the outside.
* A raised Python exception is the `.error` case of `Except PyErr _`;
  the `PyErr` constructor records which exception class is raised.
* Scalar configuration values (`Value`) cover strings, ints, bools, `None`
  and the `UNSET` sentinel class object of the source.  YAML/JSON collection
  values are outside the scope of the claims settled here.
* Calls into the outside world (`os.environ`, `os.getenv`, reading the file
  behind a `file://` URI, `json.loads` of the external `json` library) are
  fields of an explicit `SysEnv` record that is threaded through the
  functions, mirroring exactly how the source consumes their results.
* `ConfigLoader.log` writes a JSON line to stderr; the embedding records the
  `level` and `event` fields of such a line as a `LogEntry` for the functions
  whose specification talks about logging (timestamps are real time and are
  not modelled).
-/

namespace AuthentikConfig

/-- Scalar Python values that can sit inside an `Attr` or be used as a `get`
default: strings, ints, bools, `None`, and the `UNSET` sentinel class. -/
inductive Value where
  | str (s : String)
  | int (n : Int)
  | bool (b : Bool)
  | pynone
  | unsetCls
deriving DecidableEq

/-- `Attr.Source` of the source: where a configuration attribute came from. -/
inductive Source where
  | unspecified
  | env
  | config_file
  | uri
deriving DecidableEq

/-- The `Attr` dataclass: a single configuration attribute (a "Value Cell").
`value` holds the resolved scalar, `source_type` and `source` its provenance.
The `__post_init__` guard (no `Attr` nested in an `Attr`) is expressed by the
type itself: `Value` has no `Attr` constructor. -/
structure AttrData where
  value : Value
  source_type : Source := Source.unspecified
  source : Option String := none
deriving DecidableEq

/-- A Python object as it occurs in the configuration tree or in a merge
source: a dict (association list in insertion order), an `Attr`, or a raw
scalar (raw scalars enter through YAML documents and `update_from_dict`). -/
inductive PyVal where
  | map (entries : List (String × PyVal))
  | attr (a : AttrData)
  | val (v : Value)

/-- Python exception classes raised by the modelled code. -/
inductive PyErr where
  | typeError
  | attributeError
  | keyError
  | indexError
  | valueError
  | improperlyConfigured
deriving DecidableEq

/-- One structured log line: its `level` and `event` (message) fields. -/
structure LogEntry where
  level : String
  event : String
deriving DecidableEq

/-! ## Association-list (Python dict) primitives -/

/-- `d[k]` lookup: the first entry with key `k` (Python dicts are nodup, the
first entry is the entry). -/
def lookupKey (es : List (String × PyVal)) (k : String) : Option PyVal :=
  match es with
  | [] => none
  | (k', v) :: rest => if k' = k then some v else lookupKey rest k

/-- `d[k] = v` assignment: replace the entry in place if the key exists,
append at the end otherwise (CPython dict insertion-order semantics). -/
def insertKey (es : List (String × PyVal)) (k : String) (v : PyVal) :
    List (String × PyVal) :=
  match es with
  | [] => [(k, v)]
  | (k', v') :: rest =>
      if k' = k then (k, v) :: rest else (k', v') :: insertKey rest k v

/-- `d.pop(k)` key removal (the key occurs at most once in a real dict). -/
def removeKey (es : List (String × PyVal)) (k : String) :
    List (String × PyVal) :=
  match es with
  | [] => []
  | (k', v') :: rest =>
      if k' = k then rest else (k', v') :: removeKey rest k

/-- `k` does not occur among the keys of `es`. -/
def keyFresh (k : String) (es : List (String × PyVal)) : Bool :=
  match es with
  | [] => true
  | (k', _) :: rest => if k' = k then false else keyFresh k rest

mutual

/-- Every dict reachable in the tree has pairwise distinct keys — an
invariant every real Python dict satisfies by construction. -/
def nodupKeysRec : PyVal → Bool
  | .map es => nodupEntries es
  | .attr _ => true
  | .val _ => true

/-- Key-distinctness of an entry list together with `nodupKeysRec` of all of
its values. -/
def nodupEntries : List (String × PyVal) → Bool
  | [] => true
  | (k, v) :: rest => keyFresh k rest && nodupKeysRec v && nodupEntries rest

end

/-! ## Python semantics helpers: truthiness, `in`, `.get`, `str`, `int` -/

/-- Python truthiness of a tree node: empty dicts, `None`, `False`, `0` and
the empty string are falsy; `Attr` instances (objects without `__bool__`)
and the `UNSET` class object are always truthy. -/
def pyTruthy : PyVal → Bool
  | .map es => !es.isEmpty
  | .attr _ => true
  | .val (.str s) => !(s.data.isEmpty)
  | .val (.int n) => n != 0
  | .val (.bool b) => b
  | .val .pynone => false
  | .val .unsetCls => true

/-- Substring test on character lists (`pat in s` for Python strings). -/
def charsHaveLead (pat s : List Char) : Bool :=
  match pat, s with
  | [], _ => true
  | _ :: _, [] => false
  | p :: ps, c :: cs => p = c && charsHaveLead ps cs

/-- `pat` occurs as a contiguous substring of `s`. -/
def charsContain (pat : List Char) (s : List Char) : Bool :=
  match s with
  | [] => pat.isEmpty
  | _ :: cs => charsHaveLead pat s || charsContain pat cs

/-- Python `comp in root`: key test for dicts, substring test for strings,
`TypeError` for objects that are not containers (`Attr`, ints, …). -/
def pyContains (root : PyVal) (comp : String) : Except PyErr Bool :=
  match root with
  | .map es => .ok (!(lookupKey es comp).isNone)
  | .attr _ => .error .typeError
  | .val (.str s) => .ok (charsContain comp.data s.data)
  | .val _ => .error .typeError

/-- Python `root.get(comp)`: defined for dicts (returning `None` when the key
is missing); any other object reached here (only strings can pass the
preceding `in` test) has no `get` attribute. -/
def pyGetItem (root : PyVal) (comp : String) : Except PyErr PyVal :=
  match root with
  | .map es =>
      .ok (match lookupKey es comp with
           | some v => v
           | none => .val .pynone)
  | _ => .error .attributeError

/-- Python `str()` of a scalar. -/
def pyStr : Value → String
  | .str s => s
  | .int n => toString n
  | .bool true => "True"
  | .bool false => "False"
  | .pynone => "None"
  | .unsetCls => "<class 'authentik.lib.config.UNSET'>"

/-- ASCII lowercasing (`str.lower()` restricted to the ASCII range in which
all strings compared by the loader live). -/
def pyLowerChars (cs : List Char) : List Char := cs.map Char.toLower

/-- `str.lower()`. -/
def pyLower (s : String) : String := ⟨pyLowerChars s.data⟩

/-- `str.strip()`: drop ASCII whitespace from both ends. -/
def pyStripChars (cs : List Char) : List Char :=
  ((cs.dropWhile Char.isWhitespace).reverse.dropWhile Char.isWhitespace).reverse

/-- `str.strip()` on strings. -/
def pyStrip (s : String) : String := ⟨pyStripChars s.data⟩

/-- Integer literal parse used by Python `int(str)`: optional surrounding
whitespace, optional sign, then a nonempty digit run (digit-group
underscores of full Python are not modelled; no claim depends on them). -/
def parseIntChars (cs : List Char) : Option Int :=
  let cs := pyStripChars cs
  let (sign, digits) :=
    match cs with
    | '-' :: rest => (true, rest)
    | '+' :: rest => (false, rest)
    | _ => (false, cs)
  if digits.isEmpty || !digits.all Char.isDigit then none
  else
    let n : Nat := digits.foldl (fun acc c => acc * 10 + (c.toNat - 48)) 0
    some (if sign then -(n : Int) else (n : Int))

/-- Python `int(x)`: ints pass through, bools coerce to 0/1, strings are
parsed (raising `ValueError` on failure), `None` and other objects raise
`TypeError`. -/
def pyInt : Value → Except PyErr Int
  | .int n => .ok n
  | .bool b => .ok (if b then 1 else 0)
  | .str s =>
      match parseIntChars s.data with
      | some n => .ok n
      | none => .error .valueError
  | .pynone => .error .typeError
  | .unsetCls => .error .typeError

/-! ## Path splitting (Python `str.split(sep)`) -/

/-- Python `s.split(sep)` for a single-character separator: keeps empty
components, always returns at least one component. -/
def pySplitChars (sep : Char) (cs : List Char) : List (List Char) :=
  match cs with
  | [] => [[]]
  | c :: rest =>
      let r := pySplitChars sep rest
      if c = sep then [] :: r
      else
        match r with
        | h :: t => (c :: h) :: t
        | [] => [[c]]

/-- Components of a dotted path under separator `sep`. -/
def pathComps (sep : Char) (path : String) : List String :=
  (pySplitChars sep path.data).map (fun l => ⟨l⟩)

/-! ## The Path Accessor: `get_path_from_dict` / `set_path_in_dict`

`get_path_from_dict(root, path, sep, default)` walks the split path.  Each
step is literally `if root and comp in root: root = root.get(comp) else:
return default`.  The walk state and the default are arbitrary Python
objects; `Option PyVal` is used so that the Python `None` default of some
call sites (`refresh`) is representable: `.ok none` means the function
returned the caller's `None` default. -/

/-- Core walk of `get_path_from_dict` over pre-split components. -/
def getPathComps (root : PyVal) (comps : List String)
    (default : Option PyVal) : Except PyErr (Option PyVal) :=
  match comps with
  | [] => .ok (some root)
  | c :: rest =>
      if pyTruthy root then
        match pyContains root c with
        | .error e => .error e
        | .ok true =>
            match pyGetItem root c with
            | .error e => .error e
            | .ok child => getPathComps child rest default
        | .ok false => .ok default
      else .ok default

/-- `get_path_from_dict` of the source: split, then walk. -/
def get_path_from_dict (root : PyVal) (path : String) (sep : Char)
    (default : Option PyVal) : Except PyErr (Option PyVal) :=
  getPathComps root (pathComps sep path) default

/-- Core walk of `set_path_in_dict` over pre-split components.  For every
component but the last: `if comp not in root: root[comp] = {}` then
`root = root.get(comp, {})`; finally `root[last] = value`.  Non-dict
nodes raise: item assignment on an `Attr`/scalar is a `TypeError`, and
`.get` on a string (reachable because `in` succeeds on strings) is an
`AttributeError`. -/
def setPathComps (root : PyVal) (comps : List String) (value : PyVal) :
    Except PyErr PyVal :=
  match comps with
  | [] => .error .indexError
  | [last] =>
      match root with
      | .map es => .ok (.map (insertKey es last value))
      | .attr _ => .error .typeError
      | .val _ => .error .typeError
  | c :: rest =>
      match root with
      | .map es =>
          match setPathComps ((lookupKey es c).getD (.map [])) rest value with
          | .error e => .error e
          | .ok child' => .ok (.map (insertKey es c child'))
      | .attr _ => .error .typeError
      | .val (.str s) =>
          if charsContain c.data s.data then .error .attributeError
          else .error .typeError
      | .val _ => .error .typeError

/-- `set_path_in_dict` of the source: split, then walk. -/
def set_path_in_dict (root : PyVal) (path : String) (value : PyVal)
    (sep : Char) : Except PyErr PyVal :=
  setPathComps root (pathComps sep path) value

/-- The recursive `_pop_deprecated_key` of `check_deprecations`: pop the
leaf at the path, pruning parent dicts that the pop left empty (`if not
current_obj[dot_part]: current_obj.pop(dot_part)`).  Returns the popped
object together with the modified tree. -/
def popDeprecatedKey (root : PyVal) (comps : List String) :
    Except PyErr (PyVal × PyVal) :=
  match comps with
  | [] => .error .indexError
  | [last] =>
      match root with
      | .map es =>
          match lookupKey es last with
          | some v => .ok (v, .map (removeKey es last))
          | none => .error .keyError
      | _ => .error .attributeError
  | c :: rest =>
      match root with
      | .map es =>
          match lookupKey es c with
          | some child =>
              match popDeprecatedKey child rest with
              | .error e => .error e
              | .ok (v, child') =>
                  -- the in-place mutation leaves `child'` under key `c`;
                  -- the emptiness check then possibly pops the key
                  if pyTruthy child' then .ok (v, .map (insertKey es c child'))
                  else .ok (v, .map (removeKey es c))
          | none => .error .keyError
      | _ => .error .typeError

/-! ## The outside world and the URI Resolver -/

/-- External state the loader consults: the process environment (in
iteration order), the file contents behind `file://` URIs (`none` models an
`OSError` on open/read), and the external `json.loads` of the standard
library (`none` models a `JSONDecodeError`). -/
structure SysEnv where
  environ : List (String × String)
  fileRead : String → Option String
  jsonLoads : String → Option Value

/-- `os.getenv(name, default)`. -/
def getenv (w : SysEnv) (name : String) (default : String) : String :=
  match w.environ.find? (fun e => e.1 = name) with
  | some e => e.2
  | none => default

/-- Result of `urllib.parse.urlparse` restricted to the fields the loader
reads. -/
structure UrlParts where
  scheme : String
  netloc : String
  path : String
  query : String
deriving DecidableEq

/-- Split a character list at the first occurrence of `sep`, if any. -/
def splitFirstChar (sep : Char) (cs : List Char) :
    Option (List Char × List Char) :=
  match cs with
  | [] => none
  | c :: rest =>
      if c = sep then some ([], rest)
      else
        match splitFirstChar sep rest with
        | some (pre, post) => some (c :: pre, post)
        | none => none

/-- Valid characters of a URI scheme after its leading letter. -/
def isSchemeChar (c : Char) : Bool :=
  c.isAlphanum || c = '+' || c = '-' || c = '.'

/-- `urllib.parse.urlparse`: strip the fragment at the first `#`; take a
scheme before the first `:` when it is a nonempty run of scheme characters
starting with a letter (lowercased); take a netloc after `//` up to the next
`/` or `?`; split the remainder into path and query at the first `?`. -/
def urlparse (s : String) : UrlParts :=
  let cs := match splitFirstChar '#' s.data with
            | some (pre, _) => pre
            | none => s.data
  let (scheme, cs) :=
    match splitFirstChar ':' cs with
    | some (pre, post) =>
        if !pre.isEmpty && (pre.headD ' ').isAlpha && pre.all isSchemeChar
        then (pyLowerChars pre, post) else ([], cs)
    | none => ([], cs)
  let (netloc, cs) :=
    match cs with
    | '/' :: '/' :: rest =>
        (rest.takeWhile (fun c => c ≠ '/' && c ≠ '?'),
         rest.dropWhile (fun c => c ≠ '/' && c ≠ '?'))
    | _ => ([], cs)
  let (path, query) :=
    match splitFirstChar '?' cs with
    | some (pre, post) => (pre, post)
    | none => (cs, [])
  ⟨⟨scheme⟩, ⟨netloc⟩, ⟨path⟩, ⟨query⟩⟩

/-- `ConfigLoader.parse_uri`: interpret a string value.  `env://NAME?d`
reads the named environment variable with the query as fallback;
`file:///p?d` reads and strips the file with the query as fallback (the
`error`-level log line it emits on read failure is not modelled — no claim
mentions it); any other string stays literal.  The result always carries
`Source.uri` provenance with the original string as `source`. -/
def parse_uri (w : SysEnv) (value : String) : AttrData :=
  let url := urlparse value
  let parsed := if url.scheme = "env" then getenv w url.netloc url.query
                else value
  let parsed :=
    if url.scheme = "file" then
      match w.fileRead url.path with
      | some content => pyStrip content
      | none => url.query
    else parsed
  ⟨.str parsed, .uri, some value⟩

/-! ## The recursive merge: `ConfigLoader.update` -/

/-- Resolution of a non-mapping merge-source value (the `else` branch of
`update`): plain strings and `Attr`-wrapped strings go through the URI
Resolver, every other non-`Attr` object is wrapped in a fresh
`Attr(value)`, and non-string `Attr`s pass through unchanged.  The `.map`
arm is unreachable at its call site (mappings take the recursion branch)
and is the identity. -/
def resolveLeaf (w : SysEnv) : PyVal → PyVal
  | .val (.str s) => .attr (parse_uri w s)
  | .val v => .attr ⟨v, .unspecified, none⟩
  | .attr a =>
      match a.value with
      | .str s => .attr (parse_uri w s)
      | _ => .attr a
  | .map es => .map es

/-- Entry loop of `ConfigLoader.update(root, updatee)`: for each updatee
item, mapping values deep-merge into `root.get(key, {})`, everything else
is resolved by `resolveLeaf` and assigned.  When `root` is not a dict the
first processed item raises: `root.get` on it is an `AttributeError`
(mapping branch), item assignment a `TypeError` (leaf branch). -/
def updateEntries (w : SysEnv) (root : PyVal) :
    List (String × PyVal) → Except PyErr PyVal
  | [] => .ok root
  | (k, .map m) :: rest =>
      (match root with
       | .map es =>
           match updateEntries w ((lookupKey es k).getD (.map [])) m with
           | .error e => .error e
           | .ok child' => updateEntries w (.map (insertKey es k child')) rest
       | _ => .error .attributeError)
  | (k, .attr a) :: rest =>
      (match root with
       | .map es => updateEntries w (.map (insertKey es k (resolveLeaf w (.attr a)))) rest
       | _ => .error .typeError)
  | (k, .val v) :: rest =>
      (match root with
       | .map es => updateEntries w (.map (insertKey es k (resolveLeaf w (.val v)))) rest
       | _ => .error .typeError)

/-- `ConfigLoader.update`: iterate `updatee.items()`.  A non-mapping updatee
has no `.items()` and raises `AttributeError`. -/
def update (w : SysEnv) (root : PyVal) (updatee : PyVal) : Except PyErr PyVal :=
  match updatee with
  | .map entries => updateEntries w root entries
  | _ => .error .attributeError

/-! ## `ConfigLoader` accessors -/

/-- `ConfigLoader.get(path, default, sep)`: resolve via the Path Accessor
with the default pre-wrapped as `Attr(default)`, then unwrap `.value`.
Objects without a `value` attribute (dicts, raw scalars) raise
`AttributeError` at the unwrap. -/
def configGet (cfg : PyVal) (path : String) (default : Value)
    (sep : Char := '.') : Except PyErr Value :=
  match get_path_from_dict cfg path sep
      (some (.attr ⟨default, .unspecified, none⟩)) with
  | .error e => .error e
  | .ok none => .error .attributeError
  | .ok (some (.attr a)) => .ok a.value
  | .ok (some (.map _)) => .error .attributeError
  | .ok (some (.val _)) => .error .attributeError

/-- `ConfigLoader.set(path, value, sep)`: `set_path_in_dict` of a fresh
`Attr(value)` — provenance is always `unspecified`/`None`. -/
def configSet (cfg : PyVal) (path : String) (value : Value)
    (sep : Char := '.') : Except PyErr PyVal :=
  set_path_in_dict cfg path (.attr ⟨value, .unspecified, none⟩) sep

/-- `ConfigLoader.get_int`: `int(self.get(path, default))`, catching only
`ValueError` (warn and return the default); any other exception — in
particular the `TypeError` that `int(None)` raises — propagates. -/
def get_int (cfg : PyVal) (path : String) (default : Int) :
    Except PyErr (Int × List LogEntry) :=
  match configGet cfg path (.int default) with
  | .error e => .error e
  | .ok v =>
      match pyInt v with
      | .ok n => .ok (n, [])
      | .error .valueError =>
          .ok (default, [⟨"warning", "Failed to parse config as int"⟩])
      | .error e => .error e

/-- `ConfigLoader.get_bool`: `str(self.get(path, default)).lower() == "true"`. -/
def get_bool (cfg : PyVal) (path : String) (default : Value) :
    Except PyErr Bool :=
  match configGet cfg path default with
  | .error e => .error e
  | .ok v => .ok (pyLower (pyStr v) = "true")

/-- In-place field mutation `attr.value = …` seen through the tree alias:
rebuild the tree with the node at `comps` replaced (identity when the path
is absent, which cannot happen at the call site since the accessor found
the node there). -/
def replaceAtPath (t : PyVal) (comps : List String) (newNode : PyVal) : PyVal :=
  match comps with
  | [] => newNode
  | c :: rest =>
      match t with
      | .map es =>
          match lookupKey es c with
          | some child => .map (insertKey es c (replaceAtPath child rest newNode))
          | none => t
      | _ => t

/-- `ConfigLoader.refresh(key)`: re-resolve the attribute at `key` through
`parse_uri(attr.source)` — but only when `attr.source_type` is `URI`;
otherwise return with the tree untouched.  The Path Accessor is called with
its `None` default, so an absent key means `None.source_type` —
`AttributeError` (likewise dicts and raw scalars, which lack
`source_type`).  A `URI` attribute whose `source` is `None` would crash
inside `urlparse`. -/
def refresh (w : SysEnv) (cfg : PyVal) (key : String) : Except PyErr PyVal :=
  match get_path_from_dict cfg key '.' none with
  | .error e => .error e
  | .ok none => .error .attributeError
  | .ok (some (.map _)) => .error .attributeError
  | .ok (some (.val _)) => .error .attributeError
  | .ok (some (.attr a)) =>
      if a.source_type ≠ Source.uri then .ok cfg
      else
        match a.source with
        | none => .error .typeError
        | some s =>
            .ok (replaceAtPath cfg (pathComps '.' key)
                  (.attr ⟨(parse_uri w s).value, a.source_type, a.source⟩))

/-- `ConfigLoader.patch(path, value)` as a whole-context run: snapshot
`get(path)`, `set(path, value)`, run the body (which may raise —
`bodyRaises`; the `finally` clause restores either way), then
`set(path, original_value)`.  The returned flag reports whether the body's
exception propagates after restoration. -/
def patchRun (cfg : PyVal) (path : String) (value : Value)
    (bodyRaises : Bool) : Except PyErr (PyVal × Bool) :=
  match configGet cfg path .pynone with
  | .error e => .error e
  | .ok original =>
      match configSet cfg path value with
      | .error e => .error e
      | .ok cfg₁ =>
          match configSet cfg₁ path original with
          | .error e => .error e
          | .ok cfg₂ => .ok (cfg₂, bodyRaises)

/-! ## File loading -/

/-- Outcome of `open(path)` + `yaml.safe_load(file)` for one file, seen as
one external event: the open can be denied, the YAML can fail to parse, or
it parses to a Python document. -/
inductive OpenResult where
  | permissionDenied
  | yamlError
  | parsed (doc : PyVal)

/-- `ConfigLoader.update_from_file`: merge the parsed YAML document; a
`yaml.YAMLError` becomes `raise ImproperlyConfigured`; a `PermissionError`
on open is logged as a warning and swallowed, leaving the tree untouched.
Exceptions `update` itself raises (e.g. merging a mapping over a scalar
leaf) are neither of these and propagate as themselves. -/
def update_from_file (w : SysEnv) (res : OpenResult) (cfg : PyVal) :
    Except PyErr (PyVal × List LogEntry) :=
  match res with
  | .permissionDenied =>
      .ok (cfg, [⟨"warning", "Permission denied while reading file"⟩])
  | .yamlError => .error .improperlyConfigured
  | .parsed doc =>
      match update w cfg doc with
      | .error e => .error e
      | .ok cfg' => .ok (cfg', [⟨"debug", "Loaded config"⟩])

/-! ## Environment ingestion -/

/-- `pat` is a leading run of `s`. -/
def pyStartsWith (pat : String) (s : String) : Bool :=
  charsHaveLead pat.data s.data

/-- `s.replace(pat, "", 1)`: remove the first occurrence of `pat`. -/
def removeFirstChars (pat : List Char) (s : List Char) : List Char :=
  if charsHaveLead pat s then s.drop pat.length
  else
    match s with
    | [] => []
    | c :: cs => c :: removeFirstChars pat cs

/-- `s.replace("__", ".")`: left-to-right, non-overlapping. -/
def dunderToDot (s : List Char) : List Char :=
  match s with
  | '_' :: '_' :: rest => '.' :: dunderToDot rest
  | c :: rest => c :: dunderToDot rest
  | [] => []

/-- Derived dotted path of an environment variable name:
`key.replace("AUTHENTIK_", "", 1).replace("__", ".").lower()`. -/
def deriveKey (key : String) : String :=
  ⟨pyLowerChars (dunderToDot (removeFirstChars ("AUTHENTIK_").data key.data))⟩

/-- Loop body of `update_from_env`: build the `outer` sub-tree from all
environment variables whose name starts with `AUTHENTIK`, counting them.
Each value is JSON-decoded when possible (kept as the raw string
otherwise), wrapped as `Attr(value, Source.ENV, relative_key)` and placed
at its dotted path. -/
def envOuter (w : SysEnv) :
    List (String × String) → PyVal → Nat → Except PyErr (PyVal × Nat)
  | [], outer, idx => .ok (outer, idx)
  | (key, raw) :: rest, outer, idx =>
      if pyStartsWith ("AUTHENTIK") key then
        let rk := deriveKey key
        let v := (w.jsonLoads raw).getD (.str raw)
        match setPathComps outer (pathComps '.' rk) (.attr ⟨v, .env, some rk⟩) with
        | .error e => .error e
        | .ok outer' => envOuter w rest outer' (idx + 1)
      else envOuter w rest outer idx

/-- `ConfigLoader.update_from_env`: build `outer`, then (when at least one
variable matched) log and merge it into the tree with the ordinary merge —
so string-valued variables pass through the URI Resolver again. -/
def update_from_env (w : SysEnv) (cfg : PyVal) :
    Except PyErr (PyVal × List LogEntry) :=
  match envOuter w w.environ (.map []) 0 with
  | .error e => .error e
  | .ok (outer, idx) =>
      if idx > 0 then
        match update w cfg outer with
        | .error e => .error e
        | .ok cfg' => .ok (cfg', [⟨"debug", "Loaded environment variables"⟩])
      else .ok (cfg, [])

/-! ## Deprecation migration -/

/-- The static `DEPRECATIONS` table (old dotted path ↦ new dotted path). -/
def DEPRECATIONS : List (String × String) :=
  [("geoip", "events.context_processors.geoip"),
   ("redis.broker_url", "broker.url"),
   ("redis.broker_transport_options", "broker.transport_options"),
   ("redis.cache_timeout", "cache.timeout"),
   ("redis.cache_timeout_flows", "cache.timeout_flows"),
   ("redis.cache_timeout_policies", "cache.timeout_policies"),
   ("redis.cache_timeout_reputation", "cache.timeout_reputation")]

/-- The warning message formatted for one deprecated path. -/
def depMessage (dep repl : String) : String :=
  "'" ++ dep ++ "' has been deprecated in favor of '" ++ repl ++
    "'! Please update your configuration."

/-- `deprecated_attr.value`: only `Attr` objects carry the attribute. -/
def attrValueOf : PyVal → Except PyErr Value
  | .attr a => .ok a.value
  | _ => .error .attributeError

/-- One iteration of `check_deprecations` for table entry `(dep, repl)`:
when `get(dep, UNSET)` finds something, warn; then
`from authentik.events.models import …` is attempted — an `ImportError`
(`eventsOk = false`) hits `continue` and skips the migration; otherwise the
old path is popped (pruning emptied parents) and the popped value's scalar
is `set` at the new path. -/
def checkDepStep (eventsOk : Bool) (dep repl : String)
    (st : PyVal × List LogEntry) : Except PyErr (PyVal × List LogEntry) :=
  match configGet st.1 dep .unsetCls with
  | .error e => .error e
  | .ok v =>
      if v = Value.unsetCls then .ok st
      else
        let logs := st.2 ++ [⟨"warning", depMessage dep repl⟩]
        if eventsOk = false then .ok (st.1, logs)
        else
          match popDeprecatedKey st.1 (pathComps '.' dep) with
          | .error e => .error e
          | .ok (popped, cfg₁) =>
              match attrValueOf popped with
              | .error e => .error e
              | .ok av =>
                  match configSet cfg₁ repl av with
                  | .error e => .error e
                  | .ok cfg₂ => .ok (cfg₂, logs)

/-- Fold of `checkDepStep` over (a suffix of) the deprecation table. -/
def checkDepsGo (eventsOk : Bool) :
    List (String × String) → PyVal × List LogEntry →
    Except PyErr (PyVal × List LogEntry)
  | [], st => .ok st
  | (dep, repl) :: rest, st =>
      match checkDepStep eventsOk dep repl st with
      | .error e => .error e
      | .ok st' => checkDepsGo eventsOk rest st'

/-- `ConfigLoader.check_deprecations`, run at the end of construction. -/
def check_deprecations (eventsOk : Bool) (cfg : PyVal) :
    Except PyErr (PyVal × List LogEntry) :=
  checkDepsGo eventsOk DEPRECATIONS (cfg, [])

/-! ## Specification-side helpers

These are not translations of source functions; they only serve to state
theorems: a pure structural path lookup, the "walked nodes are mappings"
guard, and path divergence. -/

/-- Pure structural lookup: walk mapping nodes by key, `none` as soon as a
key is missing or a non-mapping is hit before the path ends. -/
def lookupPathD (t : PyVal) (comps : List String) : Option PyVal :=
  match comps with
  | [] => some t
  | c :: rest =>
      match t with
      | .map es =>
          match lookupKey es c with
          | some child => lookupPathD child rest
          | none => none
      | _ => none

/-- The walk of `comps` from `root` stays inside mappings (or stops at a
falsy node / missing key): the regime in which `get_path_from_dict` is
exception-free. -/
def safeWalk (root : PyVal) (comps : List String) : Bool :=
  match comps with
  | [] => true
  | c :: rest =>
      if pyTruthy root then
        match root with
        | .map es =>
            match lookupKey es c with
            | some child => safeWalk child rest
            | none => true
        | _ => false
      else true

/-- Two component paths diverge: they disagree at some index that both
reach (neither is a prefix of the other up to that point). -/
def divergePaths (p q : List String) : Bool :=
  match p, q with
  | a :: as_, b :: bs => if a = b then divergePaths as_ bs else true
  | _, _ => false

/-- The object is not a Python mapping (so a merge treats it as a leaf). -/
def notMap : PyVal → Bool
  | .map _ => false
  | .attr _ => true
  | .val _ => true

/-- The merge source does not define path `q`: walking `q` through the
source's nested mappings, some component is missing from the mapping
reached at its depth (before any non-mapping is hit and before the path
ends).  These are exactly the paths a merge of the source provably leaves
alone. -/
def srcMissesPath (u : PyVal) : List String → Bool
  | [] => false
  | c :: rest =>
      match u with
      | .map es =>
          match lookupKey es c with
          | some child => srcMissesPath child rest
          | none => true
      | _ => false

mutual

/-- Every leaf of the tree is an `Attr` (no raw scalars): the invariant of
trees the loader itself builds, which only ever inserts dicts and `Attr`s. -/
def noRawVals : PyVal → Bool
  | .map es => noRawValsL es
  | .attr _ => true
  | .val _ => false

/-- `noRawVals` over the values of an entry list. -/
def noRawValsL : List (String × PyVal) → Bool
  | [] => true
  | (_, v) :: rest => noRawVals v && noRawValsL rest

end

/-! ## Lemmas: association-list primitives -/

theorem lookupKey_insertKey_self (es : List (String × PyVal)) (k : String)
    (v : PyVal) : lookupKey (insertKey es k v) k = some v := by
  induction es with
  | nil => simp [insertKey, lookupKey]
  | cons e rest ih =>
      obtain ⟨k', v'⟩ := e
      by_cases h : k' = k <;> simp [insertKey, lookupKey, h, ih]

theorem lookupKey_insertKey_other (es : List (String × PyVal)) (k j : String)
    (v : PyVal) (hjk : j ≠ k) :
    lookupKey (insertKey es k v) j = lookupKey es j := by
  have hkj : k ≠ j := Ne.symm hjk
  induction es with
  | nil => simp [insertKey, lookupKey, hkj]
  | cons e rest ih =>
      obtain ⟨k', v'⟩ := e
      by_cases h : k' = k
      · subst h
        simp [insertKey, lookupKey, hkj]
      · simp only [insertKey, h, if_false]
        by_cases h2 : k' = j <;> simp [lookupKey, h2, ih]

theorem lookupKey_removeKey_other (es : List (String × PyVal)) (k j : String)
    (hjk : j ≠ k) : lookupKey (removeKey es k) j = lookupKey es j := by
  have hkj : k ≠ j := Ne.symm hjk
  induction es with
  | nil => simp [removeKey]
  | cons e rest ih =>
      obtain ⟨k', v'⟩ := e
      by_cases h : k' = k
      · subst h
        simp [removeKey, lookupKey, hkj]
      · simp only [removeKey, h, if_false]
        by_cases h2 : k' = j <;> simp [lookupKey, h2, ih]

theorem keyFresh_lookup_none (es : List (String × PyVal)) (k : String)
    (h : keyFresh k es = true) : lookupKey es k = none := by
  induction es with
  | nil => simp [lookupKey]
  | cons e rest ih =>
      obtain ⟨k', v'⟩ := e
      by_cases hk : k' = k
      · simp [keyFresh, hk] at h
      · simp [keyFresh, hk] at h
        simp [lookupKey, hk, ih h]

theorem lookupKey_removeKey_self (es : List (String × PyVal)) (k : String)
    (h : nodupEntries es = true) : lookupKey (removeKey es k) k = none := by
  induction es with
  | nil => simp [removeKey, lookupKey]
  | cons e rest ih =>
      obtain ⟨k', v'⟩ := e
      simp only [nodupEntries, Bool.and_eq_true] at h
      by_cases hk : k' = k
      · subst hk
        simpa [removeKey] using keyFresh_lookup_none rest k' h.1.1
      · simp [removeKey, lookupKey, hk, ih h.2]

theorem insertKey_ne_nil (es : List (String × PyVal)) (k : String)
    (v : PyVal) : insertKey es k v ≠ [] := by
  cases es with
  | nil => simp [insertKey]
  | cons e rest =>
      obtain ⟨k', v'⟩ := e
      by_cases h : k' = k <;> simp [insertKey, h]

theorem lookupKey_some_ne_nil (es : List (String × PyVal)) (k : String)
    (v : PyVal) (h : lookupKey es k = some v) : es ≠ [] := by
  cases es with
  | nil => simp [lookupKey] at h
  | cons e rest => simp

theorem keyFresh_insertKey (es : List (String × PyVal)) (k j : String)
    (v : PyVal) (hjk : j ≠ k) (h : keyFresh j es = true) :
    keyFresh j (insertKey es k v) = true := by
  have hkj : k ≠ j := Ne.symm hjk
  induction es with
  | nil => simp [insertKey, keyFresh, hkj]
  | cons e rest ih =>
      obtain ⟨k', v'⟩ := e
      by_cases hk : k' = k
      · subst hk
        simp only [keyFresh] at h
        by_cases hj : k' = j
        · simp [hj] at h
        · simp only [hj, if_false] at h
          simp [insertKey, keyFresh, hkj, h]
      · by_cases hj : k' = j
        · simp [keyFresh, hj] at h
        · simp only [keyFresh, hj, if_false] at h
          simp [insertKey, keyFresh, hk, hj, ih h]

theorem keyFresh_removeKey (es : List (String × PyVal)) (k j : String)
    (h : keyFresh j es = true) : keyFresh j (removeKey es k) = true := by
  induction es with
  | nil => simp [removeKey, keyFresh]
  | cons e rest ih =>
      obtain ⟨k', v'⟩ := e
      by_cases hj : k' = j
      · simp [keyFresh, hj] at h
      · simp only [keyFresh, hj, if_false] at h
        by_cases hk : k' = k
        · simpa [removeKey, hk] using h
        · simp [removeKey, keyFresh, hk, hj, ih h]

theorem nodupEntries_insertKey (es : List (String × PyVal)) (k : String)
    (v : PyVal) (hes : nodupEntries es = true) (hv : nodupKeysRec v = true) :
    nodupEntries (insertKey es k v) = true := by
  induction es with
  | nil => simp [insertKey, nodupEntries, keyFresh, hv]
  | cons e rest ih =>
      obtain ⟨k', v'⟩ := e
      simp only [nodupEntries, Bool.and_eq_true] at hes
      by_cases hk : k' = k
      · subst hk
        simp [insertKey, nodupEntries, hes.1.1, hes.2, hv]
      · simp only [insertKey, hk, if_false, nodupEntries, Bool.and_eq_true]
        exact ⟨⟨keyFresh_insertKey rest k k' v hk hes.1.1,
          hes.1.2⟩, ih hes.2⟩

theorem nodupEntries_removeKey (es : List (String × PyVal)) (k : String)
    (hes : nodupEntries es = true) : nodupEntries (removeKey es k) = true := by
  induction es with
  | nil => simp [removeKey, nodupEntries]
  | cons e rest ih =>
      obtain ⟨k', v'⟩ := e
      simp only [nodupEntries, Bool.and_eq_true] at hes
      by_cases hk : k' = k
      · simpa [removeKey, hk] using hes.2
      · simp only [removeKey, hk, if_false, nodupEntries, Bool.and_eq_true]
        exact ⟨⟨keyFresh_removeKey rest k k' hes.1.1, hes.1.2⟩, ih hes.2⟩

theorem nodup_lookup_child (es : List (String × PyVal)) (k : String)
    (v : PyVal) (hes : nodupEntries es = true) (h : lookupKey es k = some v) :
    nodupKeysRec v = true := by
  induction es with
  | nil => simp [lookupKey] at h
  | cons e rest ih =>
      obtain ⟨k', v'⟩ := e
      simp only [nodupEntries, Bool.and_eq_true] at hes
      by_cases hk : k' = k
      · simp only [lookupKey, hk, if_true, Option.some.injEq] at h
        exact h ▸ hes.1.2
      · simp only [lookupKey, hk, if_false] at h
        exact ih hes.2 h

/-! ## Lemmas: the Path Accessor read -/

theorem pyTruthy_map_false (es : List (String × PyVal))
    (h : pyTruthy (.map es) = false) : es = [] := by
  cases es with
  | nil => rfl
  | cons e rest => simp [pyTruthy] at h

/-- Resolve an optional lookup result against a default. -/
def orDefault (o : Option PyVal) (d : Option PyVal) : Option PyVal :=
  match o with
  | some x => some x
  | none => d

/-- On walks that stay inside mappings, `get_path_from_dict` is total and
returns the addressed node, falling back to the default the moment a
component is missing or a node is falsy. -/
theorem getPathComps_safeWalk (root : PyVal) (comps : List String)
    (d : Option PyVal) (h : safeWalk root comps = true) :
    getPathComps root comps d = .ok (orDefault (lookupPathD root comps) d) := by
  induction comps generalizing root with
  | nil => simp [getPathComps, lookupPathD, orDefault]
  | cons c rest ih =>
      cases ht : pyTruthy root with
      | true =>
          cases root with
          | map es =>
              cases hl : lookupKey es c with
              | some child =>
                  have hsw : safeWalk child rest = true := by
                    simpa [safeWalk, ht, hl] using h
                  simp [getPathComps, ht, pyContains, hl, pyGetItem,
                    lookupPathD, ih child hsw]
              | none =>
                  simp [getPathComps, ht, pyContains, hl, lookupPathD, orDefault]
          | attr a => simp [safeWalk, ht] at h
          | val v => simp [safeWalk, ht] at h
      | false =>
          have hlk : lookupPathD root (c :: rest) = none := by
            cases root with
            | map es => simp [lookupPathD, pyTruthy_map_false es ht, lookupKey]
            | attr a => simp [pyTruthy] at ht
            | val v => simp [lookupPathD]
          simp [getPathComps, ht, hlk, orDefault]

/-- A successful structural lookup only crosses truthy mappings. -/
theorem lookup_some_safeWalk (root : PyVal) (comps : List String) (x : PyVal)
    (h : lookupPathD root comps = some x) : safeWalk root comps = true := by
  induction comps generalizing root with
  | nil => simp [safeWalk]
  | cons c rest ih =>
      cases root with
      | map es =>
          cases hl : lookupKey es c with
          | some child =>
              simp only [lookupPathD, hl] at h
              have hne : es ≠ [] := lookupKey_some_ne_nil es c child hl
              have ht : pyTruthy (.map es) = true := by
                cases es with
                | nil => exact absurd rfl hne
                | cons e r => simp [pyTruthy]
              simp [safeWalk, ht, hl, ih child h]
          | none => simp [lookupPathD, hl] at h
      | attr a => simp [lookupPathD] at h
      | val v => simp [lookupPathD] at h

/-- A present node is exactly what `get_path_from_dict` returns. -/
theorem getPathComps_of_lookup_some (root : PyVal) (comps : List String)
    (x : PyVal) (d : Option PyVal) (h : lookupPathD root comps = some x) :
    getPathComps root comps d = .ok (some x) := by
  have := getPathComps_safeWalk root comps d (lookup_some_safeWalk root comps x h)
  simpa [h, orDefault] using this

/-- A read step through a present key descends into its value. -/
theorem gpfd_cons_present (es : List (String × PyVal)) (c : String)
    (child : PyVal) (rest : List String) (d : Option PyVal)
    (hl : lookupKey es c = some child) :
    getPathComps (.map es) (c :: rest) d = getPathComps child rest d := by
  have hne : es ≠ [] := lookupKey_some_ne_nil es c child hl
  have ht : pyTruthy (.map es) = true := by
    cases es with
    | nil => exact absurd rfl hne
    | cons _ _ => simp [pyTruthy]
  simp [getPathComps, ht, pyContains, hl, pyGetItem]

/-- A read step at a missing key returns the default (whether the dict is
empty — hence falsy — or merely lacks the key). -/
theorem gpfd_cons_absent (es : List (String × PyVal)) (c : String)
    (rest : List String) (d : Option PyVal) (hl : lookupKey es c = none) :
    getPathComps (.map es) (c :: rest) d = .ok d := by
  cases es with
  | nil => simp [getPathComps, pyTruthy]
  | cons e r => simp [getPathComps, pyTruthy, pyContains, hl]

/-- An `Attr` present at the path is unwrapped by `ConfigLoader.get`. -/
theorem configGet_of_lookup_attr (cfg : PyVal) (path : String) (a : AttrData)
    (d : Value) (h : lookupPathD cfg (pathComps '.' path) = some (.attr a)) :
    configGet cfg path d = .ok a.value := by
  simp [configGet, get_path_from_dict,
    getPathComps_of_lookup_some cfg (pathComps '.' path) (.attr a) _ h]

/-! ## Lemmas: `set_path_in_dict` -/

/-- After a successful set, the written value sits at the path. -/
theorem setPathComps_lookup (comps : List String) (t t' v : PyVal)
    (h : setPathComps t comps v = .ok t') :
    lookupPathD t' comps = some v := by
  induction comps generalizing t t' with
  | nil => simp [setPathComps] at h
  | cons c rest ih =>
      cases rest with
      | nil =>
          cases t with
          | map es =>
              simp only [setPathComps, Except.ok.injEq] at h
              subst h
              simp [lookupPathD, lookupKey_insertKey_self]
          | attr a => simp [setPathComps] at h
          | val w => simp [setPathComps] at h
      | cons c2 rest2 =>
          cases t with
          | map es =>
              simp only [setPathComps] at h
              cases hrec : setPathComps ((lookupKey es c).getD (.map [])) (c2 :: rest2) v with
              | error e => rw [hrec] at h; cases h
              | ok child' =>
                  rw [hrec] at h
                  simp only [Except.ok.injEq] at h
                  subst h
                  simp only [lookupPathD, lookupKey_insertKey_self]
                  exact ih _ _ hrec
          | attr a => simp [setPathComps] at h
          | val w =>
              cases w with
              | str s =>
                  simp only [setPathComps] at h
                  split at h <;> cases h
              | int n => simp [setPathComps] at h
              | bool b => simp [setPathComps] at h
              | pynone => simp [setPathComps] at h
              | unsetCls => simp [setPathComps] at h

/-- A set only touches its own path: structural lookups along any diverging
path are unchanged. -/
theorem setPathComps_frame_lookup (p q : List String) (t t' v : PyVal)
    (hdiv : divergePaths p q = true) (h : setPathComps t p v = .ok t') :
    lookupPathD t' q = lookupPathD t q := by
  induction p generalizing q t t' with
  | nil => simp [divergePaths] at hdiv
  | cons a as_ ih =>
      cases q with
      | nil => simp [divergePaths] at hdiv
      | cons b bs =>
          by_cases hab : a = b
          · subst hab
            simp only [divergePaths, if_true] at hdiv
            -- diverging tails are both nonempty
            cases as_ with
            | nil => simp [divergePaths] at hdiv
            | cons a2 as2 =>
                cases t with
                | map es =>
                    simp only [setPathComps] at h
                    cases hrec : setPathComps ((lookupKey es a).getD (.map []))
                        (a2 :: as2) v with
                    | error e => rw [hrec] at h; cases h
                    | ok child' =>
                        rw [hrec] at h
                        simp only [Except.ok.injEq] at h
                        subst h
                        have htail := ih bs _ _ hdiv hrec
                        cases hl : lookupKey es a with
                        | some ch =>
                            simp [lookupPathD, lookupKey_insertKey_self, hl,
                              hl ▸ htail]
                        | none =>
                            have : lookupPathD (.map ([] : List (String × PyVal))) bs = none := by
                              cases bs with
                              | nil => simp [divergePaths] at hdiv
                              | cons b2 bs2 => simp [lookupPathD, lookupKey]
                            simp only [hl, Option.getD_none] at hrec htail
                            simp [lookupPathD, lookupKey_insertKey_self, hl,
                              htail, this]
                | attr a' => simp [setPathComps] at h
                | val w =>
                    cases w with
                    | str s =>
                        simp only [setPathComps] at h
                        split at h <;> cases h
                    | int n => simp [setPathComps] at h
                    | bool b' => simp [setPathComps] at h
                    | pynone => simp [setPathComps] at h
                    | unsetCls => simp [setPathComps] at h
          · -- heads differ: the set only rewrites key `a`
            have hba : b ≠ a := fun hh => hab hh.symm
            cases as_ with
            | nil =>
                cases t with
                | map es =>
                    simp only [setPathComps, Except.ok.injEq] at h
                    subst h
                    simp [lookupPathD, lookupKey_insertKey_other es a b v hba]
                | attr a' => simp [setPathComps] at h
                | val w => simp [setPathComps] at h
            | cons a2 as2 =>
                cases t with
                | map es =>
                    simp only [setPathComps] at h
                    cases hrec : setPathComps ((lookupKey es a).getD (.map []))
                        (a2 :: as2) v with
                    | error e => rw [hrec] at h; cases h
                    | ok child' =>
                        rw [hrec] at h
                        simp only [Except.ok.injEq] at h
                        subst h
                        simp [lookupPathD, lookupKey_insertKey_other es a b _ hba]
                | attr a' => simp [setPathComps] at h
                | val w =>
                    cases w with
                    | str s =>
                        simp only [setPathComps] at h
                        split at h <;> cases h
                    | int n => simp [setPathComps] at h
                    | bool b' => simp [setPathComps] at h
                    | pynone => simp [setPathComps] at h
                    | unsetCls => simp [setPathComps] at h

/-- A successful set leaves `get_path_from_dict` unchanged on every
diverging path, whatever the default. -/
theorem setPathComps_frame_gpfd (p q : List String) (t t' v : PyVal)
    (d : Option PyVal) (hdiv : divergePaths p q = true)
    (h : setPathComps t p v = .ok t') :
    getPathComps t' q d = getPathComps t q d := by
  induction p generalizing q t t' with
  | nil => simp [divergePaths] at hdiv
  | cons a as_ ih =>
      cases q with
      | nil => simp [divergePaths] at hdiv
      | cons b bs =>
          -- whatever the shape of the arms, a successful set forces a map
          -- and rewrites exactly the entry at key `a`
          have hmap : ∃ es X, t = .map es ∧ t' = .map (insertKey es a X) ∧
              (a = b → divergePaths as_ bs = true →
                getPathComps X bs d =
                  getPathComps ((lookupKey es a).getD (.map [])) bs d) := by
            cases as_ with
            | nil =>
                cases t with
                | map es =>
                    simp only [setPathComps, Except.ok.injEq] at h
                    exact ⟨es, v, rfl, h.symm, by
                      intro _ hd; simp [divergePaths] at hd⟩
                | attr a' => simp [setPathComps] at h
                | val w => simp [setPathComps] at h
            | cons a2 as2 =>
                cases t with
                | map es =>
                    simp only [setPathComps] at h
                    cases hrec : setPathComps ((lookupKey es a).getD (.map []))
                        (a2 :: as2) v with
                    | error e => rw [hrec] at h; cases h
                    | ok child' =>
                        rw [hrec] at h
                        simp only [Except.ok.injEq] at h
                        exact ⟨es, child', rfl, h.symm,
                          fun _ hd => ih bs _ _ hd hrec⟩
                | attr a' => simp [setPathComps] at h
                | val w =>
                    cases w with
                    | str s =>
                        simp only [setPathComps] at h
                        split at h <;> cases h
                    | int n => simp [setPathComps] at h
                    | bool b' => simp [setPathComps] at h
                    | pynone => simp [setPathComps] at h
                    | unsetCls => simp [setPathComps] at h
          obtain ⟨es, X, hts, ht's, hX⟩ := hmap
          subst hts
          subst ht's
          by_cases hab : a = b
          · subst hab
            simp only [divergePaths, if_true] at hdiv
            have htail := hX rfl hdiv
            have hbs : bs ≠ [] := by
              cases bs with
              | nil => cases as_ <;> simp [divergePaths] at hdiv
              | cons _ _ => simp
            have htr : pyTruthy (.map (insertKey es a X)) = true := by
              cases hik : insertKey es a X with
              | nil => exact absurd hik (insertKey_ne_nil es a X)
              | cons _ _ => simp [hik, pyTruthy]
            cases hl : lookupKey es a with
            | some ch =>
                have hne : es ≠ [] := lookupKey_some_ne_nil es a ch hl
                have htr2 : pyTruthy (.map es) = true := by
                  cases es with
                  | nil => exact absurd rfl hne
                  | cons _ _ => simp [pyTruthy]
                simp only [hl, Option.getD_some] at htail
                simp [getPathComps, htr, htr2, pyContains,
                  lookupKey_insertKey_self, pyGetItem, hl, htail]
            | none =>
                simp only [hl, Option.getD_none] at htail
                have hXd : getPathComps X bs d = .ok d := by
                  rw [htail]
                  cases bs with
                  | nil => exact absurd rfl hbs
                  | cons b2 bs2 => simp [getPathComps, pyTruthy]
                have hrhs : getPathComps (.map es) (a :: bs) d = .ok d := by
                  cases es with
                  | nil => simp [getPathComps, pyTruthy]
                  | cons e r =>
                      simp [getPathComps, pyTruthy, pyContains, hl]
                have hlhs : getPathComps (.map (insertKey es a X)) (a :: bs) d
                    = .ok d := by
                  simp [getPathComps, htr, pyContains, lookupKey_insertKey_self,
                    pyGetItem, hXd]
                rw [hlhs, hrhs]
          · have hba : b ≠ a := fun hh => hab hh.symm
            have hlb : lookupKey (insertKey es a X) b = lookupKey es b :=
              lookupKey_insertKey_other es a b X hba
            have htr : pyTruthy (.map (insertKey es a X)) = true := by
              cases hik : insertKey es a X with
              | nil => exact absurd hik (insertKey_ne_nil es a X)
              | cons _ _ => simp [hik, pyTruthy]
            cases hl : lookupKey es b with
            | some ch =>
                have hne : es ≠ [] := lookupKey_some_ne_nil es b ch hl
                have htr2 : pyTruthy (.map es) = true := by
                  cases es with
                  | nil => exact absurd rfl hne
                  | cons _ _ => simp [pyTruthy]
                simp [getPathComps, htr, htr2, pyContains, hlb, hl, pyGetItem]
            | none =>
                have hrhs : getPathComps (.map es) (b :: bs) d = .ok d := by
                  cases es with
                  | nil => simp [getPathComps, pyTruthy]
                  | cons e r => simp [getPathComps, pyTruthy, pyContains, hl]
                simp [getPathComps, htr, pyContains, hlb, hl, hrhs]

/-- A successful set preserves key-distinctness of every dict. -/
theorem setPathComps_nodup (comps : List String) (t t' v : PyVal)
    (ht : nodupKeysRec t = true) (hv : nodupKeysRec v = true)
    (h : setPathComps t comps v = .ok t') : nodupKeysRec t' = true := by
  induction comps generalizing t t' with
  | nil => simp [setPathComps] at h
  | cons c rest ih =>
      cases rest with
      | nil =>
          cases t with
          | map es =>
              simp only [setPathComps, Except.ok.injEq] at h
              subst h
              exact nodupEntries_insertKey es c v ht hv
          | attr a => simp [setPathComps] at h
          | val w => simp [setPathComps] at h
      | cons c2 rest2 =>
          cases t with
          | map es =>
              simp only [setPathComps] at h
              cases hrec : setPathComps ((lookupKey es c).getD (.map []))
                  (c2 :: rest2) v with
              | error e => rw [hrec] at h; cases h
              | ok child' =>
                  rw [hrec] at h
                  simp only [Except.ok.injEq] at h
                  subst h
                  have hchild : nodupKeysRec ((lookupKey es c).getD (.map [])) = true := by
                    cases hl : lookupKey es c with
                    | some ch => simpa using nodup_lookup_child es c ch ht hl
                    | none => simp [nodupKeysRec, nodupEntries]
                  exact nodupEntries_insertKey es c child' ht (ih _ _ hchild hrec)
          | attr a => simp [setPathComps] at h
          | val w =>
              cases w with
              | str s =>
                  simp only [setPathComps] at h
                  split at h <;> cases h
              | int n => simp [setPathComps] at h
              | bool b => simp [setPathComps] at h
              | pynone => simp [setPathComps] at h
              | unsetCls => simp [setPathComps] at h

/-- Setting into a tree where a previous set of the same path succeeded
succeeds again (the spine the first set created or crossed is all dicts). -/
theorem setPathComps_again (comps : List String) (t t' v v2 : PyVal)
    (h : setPathComps t comps v = .ok t') :
    ∃ t'', setPathComps t' comps v2 = .ok t'' := by
  induction comps generalizing t t' with
  | nil => simp [setPathComps] at h
  | cons c rest ih =>
      cases rest with
      | nil =>
          cases t with
          | map es =>
              simp only [setPathComps, Except.ok.injEq] at h
              subst h
              exact ⟨_, rfl⟩
          | attr a => simp [setPathComps] at h
          | val w => simp [setPathComps] at h
      | cons c2 rest2 =>
          cases t with
          | map es =>
              simp only [setPathComps] at h
              cases hrec : setPathComps ((lookupKey es c).getD (.map []))
                  (c2 :: rest2) v with
              | error e => rw [hrec] at h; cases h
              | ok child' =>
                  rw [hrec] at h
                  simp only [Except.ok.injEq] at h
                  subst h
                  obtain ⟨child'', hc⟩ := ih _ _ hrec
                  refine ⟨.map (insertKey (insertKey es c child') c child''), ?_⟩
                  simp [setPathComps, lookupKey_insertKey_self, hc]
          | attr a => simp [setPathComps] at h
          | val w =>
              cases w with
              | str s =>
                  simp only [setPathComps] at h
                  split at h <;> cases h
              | int n => simp [setPathComps] at h
              | bool b => simp [setPathComps] at h
              | pynone => simp [setPathComps] at h
              | unsetCls => simp [setPathComps] at h

/-- Setting any nonempty path into an empty dict succeeds (the walk only
creates fresh dicts). -/
theorem setPathComps_fresh (comps : List String) (v : PyVal)
    (hne : comps ≠ []) :
    ∃ t', setPathComps (.map []) comps v = .ok t' := by
  induction comps with
  | nil => exact absurd rfl hne
  | cons c rest ih =>
      cases rest with
      | nil => exact ⟨_, rfl⟩
      | cons c2 rest2 =>
          obtain ⟨t', ht'⟩ := ih (by simp)
          refine ⟨.map (insertKey [] c t'), ?_⟩
          simp [setPathComps, lookupKey, ht']

/-- A looked-up child of a raw-value-free tree is raw-value-free. -/
theorem noRaw_lookup_child (es : List (String × PyVal)) (k : String)
    (v : PyVal) (hes : noRawValsL es = true) (h : lookupKey es k = some v) :
    noRawVals v = true := by
  induction es with
  | nil => simp [lookupKey] at h
  | cons e rest ih =>
      obtain ⟨k', v'⟩ := e
      simp only [noRawValsL, Bool.and_eq_true] at hes
      by_cases hk : k' = k
      · simp only [lookupKey, hk, if_true, Option.some.injEq] at h
        exact h ▸ hes.1
      · simp only [lookupKey, hk, if_false] at h
        exact ih hes.2 h

/-- On trees whose leaves are all `Attr`s, a path on which the read
accessor does not raise is a path on which a set succeeds. -/
theorem getOk_setOk (comps : List String) (t : PyVal) (d : Option PyVal)
    (r : Option PyVal) (v : PyVal) (hraw : noRawVals t = true)
    (hne : comps ≠ []) (h : getPathComps t comps d = .ok r) :
    ∃ t', setPathComps t comps v = .ok t' := by
  induction comps generalizing t d r with
  | nil => exact absurd rfl hne
  | cons c rest ih =>
      cases t with
      | map es =>
          cases rest with
          | nil => exact ⟨_, rfl⟩
          | cons c2 rest2 =>
              cases ht : pyTruthy (.map es) with
              | false =>
                  have : es = [] := pyTruthy_map_false es ht
                  subst this
                  obtain ⟨t', ht'⟩ := setPathComps_fresh (c2 :: rest2) v (by simp)
                  refine ⟨.map (insertKey [] c t'), ?_⟩
                  simp [setPathComps, lookupKey, ht']
              | true =>
                  cases hl : lookupKey es c with
                  | some child =>
                      have hrec : getPathComps child (c2 :: rest2) d = .ok r := by
                        simpa [getPathComps, ht, pyContains, hl, pyGetItem] using h
                      have hcraw : noRawVals child = true :=
                        noRaw_lookup_child es c child (by simpa [noRawVals] using hraw) hl
                      obtain ⟨t', ht'⟩ := ih child d r hcraw (by simp) hrec
                      refine ⟨.map (insertKey es c t'), ?_⟩
                      simp [setPathComps, hl, ht']
                  | none =>
                      obtain ⟨t', ht'⟩ := setPathComps_fresh (c2 :: rest2) v (by simp)
                      refine ⟨.map (insertKey es c t'), ?_⟩
                      simp [setPathComps, hl, ht']
      | attr a =>
          -- `in` on an Attr raises: the read cannot have returned ok
          simp [getPathComps, pyTruthy, pyContains] at h
      | val w => simp [noRawVals] at hraw

/-! ## Lemmas: `_pop_deprecated_key` -/

/-- A successful pop always returns a dict as the modified tree. -/
theorem popDeprecatedKey_result_map (comps : List String) (t x t' : PyVal)
    (h : popDeprecatedKey t comps = .ok (x, t')) :
    ∃ es', t' = .map es' := by
  cases comps with
  | nil => simp [popDeprecatedKey] at h
  | cons c rest =>
      cases rest with
      | nil =>
          cases t with
          | map es =>
              simp only [popDeprecatedKey] at h
              cases hl : lookupKey es c with
              | some v => rw [hl] at h; simp only [Except.ok.injEq, Prod.mk.injEq] at h; exact ⟨_, h.2.symm⟩
              | none => simp [hl] at h
          | attr a => simp [popDeprecatedKey] at h
          | val w => simp [popDeprecatedKey] at h
      | cons c2 rest2 =>
          cases t with
          | map es =>
              simp only [popDeprecatedKey] at h
              cases hl : lookupKey es c with
              | none => simp [hl] at h
              | some child =>
                  simp only [hl] at h
                  cases hpop : popDeprecatedKey child (c2 :: rest2) with
                  | error e => rw [hpop] at h; cases h
                  | ok p =>
                      obtain ⟨x', child'⟩ := p
                      rw [hpop] at h
                      cases htr : pyTruthy child' <;>
                        · simp only [htr, Bool.false_eq_true, if_false, if_true,
                            Except.ok.injEq, Prod.mk.injEq] at h
                          exact ⟨_, h.2.symm⟩
          | attr a => simp [popDeprecatedKey] at h
          | val w => simp [popDeprecatedKey] at h

/-- `removeKey` can only empty a singleton dict holding exactly that key. -/
theorem removeKey_eq_nil (es : List (String × PyVal)) (a : String)
    (h : removeKey es a = []) : es = [] ∨ ∃ v, es = [(a, v)] := by
  cases es with
  | nil => exact Or.inl rfl
  | cons e rest =>
      obtain ⟨k, v⟩ := e
      by_cases hk : k = a
      · subst hk
        simp only [removeKey, if_true] at h
        subst h
        exact Or.inr ⟨v, rfl⟩
      · simp [removeKey, hk] at h

/-- After a successful pop, the read accessor returns the default at the
popped path: the old key is gone (and pruned parents along with it). -/
theorem popDeprecatedKey_gpfd_default (comps : List String) (t x t' : PyVal)
    (hnd : nodupKeysRec t = true)
    (h : popDeprecatedKey t comps = .ok (x, t')) (d : Option PyVal) :
    getPathComps t' comps d = .ok d := by
  induction comps generalizing t x t' with
  | nil => simp [popDeprecatedKey] at h
  | cons c rest ih =>
      cases rest with
      | nil =>
          cases t with
          | map es =>
              simp only [popDeprecatedKey] at h
              cases hl : lookupKey es c with
              | none => simp [hl] at h
              | some v =>
                  rw [hl] at h
                  simp only [Except.ok.injEq, Prod.mk.injEq] at h
                  obtain ⟨hx, ht'⟩ := h
                  subst ht'
                  exact gpfd_cons_absent _ _ _ d (lookupKey_removeKey_self es c hnd)
          | attr a => simp [popDeprecatedKey] at h
          | val w => simp [popDeprecatedKey] at h
      | cons c2 rest2 =>
          cases t with
          | map es =>
              simp only [popDeprecatedKey] at h
              cases hl : lookupKey es c with
              | none => simp [hl] at h
              | some child =>
                  simp only [hl] at h
                  cases hpop : popDeprecatedKey child (c2 :: rest2) with
                  | error e => rw [hpop] at h; cases h
                  | ok p =>
                      obtain ⟨x', child'⟩ := p
                      rw [hpop] at h
                      have hndc : nodupKeysRec child = true :=
                        nodup_lookup_child es c child hnd hl
                      cases htr : pyTruthy child' with
                      | true =>
                          simp only [htr, if_true, Except.ok.injEq,
                            Prod.mk.injEq] at h
                          obtain ⟨hx, ht'⟩ := h
                          subst ht'
                          rw [gpfd_cons_present _ _ _ _ _
                            (lookupKey_insertKey_self es c child')]
                          exact ih child x' child' hndc hpop
                      | false =>
                          simp only [htr, Bool.false_eq_true, if_false,
                            Except.ok.injEq, Prod.mk.injEq] at h
                          obtain ⟨hx, ht'⟩ := h
                          subst ht'
                          exact gpfd_cons_absent _ _ _ d
                            (lookupKey_removeKey_self es c hnd)
          | attr a => simp [popDeprecatedKey] at h
          | val w => simp [popDeprecatedKey] at h

/-- A pop that empties the whole (sub)tree can only have acted on a chain of
singleton dicts: reads along any diverging path already returned the
default before the pop. -/
theorem popDeprecatedKey_emptied (p q : List String) (t x : PyVal)
    (hdiv : divergePaths p q = true) (hnd : nodupKeysRec t = true)
    (h : popDeprecatedKey t p = .ok (x, .map [])) (d : Option PyVal) :
    getPathComps t q d = .ok d := by
  induction p generalizing q t x with
  | nil => simp [popDeprecatedKey] at h
  | cons a as_ ih =>
      cases q with
      | nil => simp [divergePaths] at hdiv
      | cons b bs =>
          cases as_ with
          | nil =>
              have hab : a ≠ b := by
                intro hh
                subst hh
                simp [divergePaths] at hdiv
              have hba : b ≠ a := fun hh => hab hh.symm
              cases t with
              | map es =>
                  simp only [popDeprecatedKey] at h
                  cases hl : lookupKey es a with
                  | none => simp [hl] at h
                  | some v =>
                      simp only [hl, Except.ok.injEq, Prod.mk.injEq,
                        PyVal.map.injEq] at h
                      rcases removeKey_eq_nil es a h.2 with hnil | ⟨w, hw⟩
                      · rw [hnil] at hl
                        simp [lookupKey] at hl
                      · subst hw
                        exact gpfd_cons_absent _ _ _ d (by simp [lookupKey, hab])
              | attr a' => simp [popDeprecatedKey] at h
              | val w => simp [popDeprecatedKey] at h
          | cons a2 as2 =>
              cases t with
              | map es =>
                  simp only [popDeprecatedKey] at h
                  cases hl : lookupKey es a with
                  | none => simp [hl] at h
                  | some child =>
                      simp only [hl] at h
                      cases hpop : popDeprecatedKey child (a2 :: as2) with
                      | error e => rw [hpop] at h; cases h
                      | ok pr =>
                          obtain ⟨x', child'⟩ := pr
                          rw [hpop] at h
                          have hndc : nodupKeysRec child = true :=
                            nodup_lookup_child es a child hnd hl
                          cases htr : pyTruthy child' with
                          | true =>
                              simp only [htr, if_true, Except.ok.injEq,
                                Prod.mk.injEq, PyVal.map.injEq] at h
                              exact absurd h.2 (insertKey_ne_nil es a child')
                          | false =>
                              simp only [htr, Bool.false_eq_true, if_false,
                                Except.ok.injEq, Prod.mk.injEq,
                                PyVal.map.injEq] at h
                              obtain ⟨es2, he2⟩ :=
                                popDeprecatedKey_result_map _ _ _ _ hpop
                              subst he2
                              have hes2 : es2 = [] := pyTruthy_map_false es2 htr
                              subst hes2
                              rcases removeKey_eq_nil es a h.2 with hnil | ⟨w, hw⟩
                              · rw [hnil] at hl
                                simp [lookupKey] at hl
                              · subst hw
                                have hwc : w = child := by
                                  simpa [lookupKey] using hl
                                subst hwc
                                by_cases hab : a = b
                                · subst hab
                                  have hdiv' : divergePaths (a2 :: as2) bs = true := by
                                    simpa [divergePaths] using hdiv
                                  rw [gpfd_cons_present _ _ _ _ _
                                    (show lookupKey [(a, w)] a = some w by
                                      simp [lookupKey])]
                                  exact ih bs w x' hdiv' hndc hpop
                                · exact gpfd_cons_absent _ _ _ d
                                    (by simp [lookupKey, hab])
              | attr a' => simp [popDeprecatedKey] at h
              | val w => simp [popDeprecatedKey] at h

/-- A pop leaves the read accessor unchanged on every diverging path. -/
theorem popDeprecatedKey_frame_gpfd (p q : List String) (t x t' : PyVal)
    (d : Option PyVal) (hdiv : divergePaths p q = true)
    (hnd : nodupKeysRec t = true) (h : popDeprecatedKey t p = .ok (x, t')) :
    getPathComps t' q d = getPathComps t q d := by
  induction p generalizing q t x t' with
  | nil => simp [popDeprecatedKey] at h
  | cons a as_ ih =>
      cases q with
      | nil => simp [divergePaths] at hdiv
      | cons b bs =>
          cases as_ with
          | nil =>
              have hab : a ≠ b := by
                intro hh
                subst hh
                simp [divergePaths] at hdiv
              have hba : b ≠ a := fun hh => hab hh.symm
              cases t with
              | map es =>
                  simp only [popDeprecatedKey] at h
                  cases hl : lookupKey es a with
                  | none => simp [hl] at h
                  | some v =>
                      simp only [hl, Except.ok.injEq, Prod.mk.injEq] at h
                      obtain ⟨hx, ht'⟩ := h
                      subst ht'
                      have hlb : lookupKey (removeKey es a) b = lookupKey es b :=
                        lookupKey_removeKey_other es a b hba
                      cases hlb2 : lookupKey es b with
                      | some ch =>
                          rw [gpfd_cons_present _ _ _ _ _ (hlb.trans hlb2),
                            gpfd_cons_present _ _ _ _ _ hlb2]
                      | none =>
                          rw [gpfd_cons_absent _ _ _ _ (hlb.trans hlb2),
                            gpfd_cons_absent _ _ _ _ hlb2]
              | attr a' => simp [popDeprecatedKey] at h
              | val w => simp [popDeprecatedKey] at h
          | cons a2 as2 =>
              cases t with
              | map es =>
                  simp only [popDeprecatedKey] at h
                  cases hl : lookupKey es a with
                  | none => simp [hl] at h
                  | some child =>
                      simp only [hl] at h
                      cases hpop : popDeprecatedKey child (a2 :: as2) with
                      | error e => rw [hpop] at h; cases h
                      | ok pr =>
                          obtain ⟨x', child'⟩ := pr
                          rw [hpop] at h
                          have hndc : nodupKeysRec child = true :=
                            nodup_lookup_child es a child hnd hl
                          by_cases hab : a = b
                          · subst hab
                            have hdiv' : divergePaths (a2 :: as2) bs = true := by
                              simpa [divergePaths] using hdiv
                            cases htr : pyTruthy child' with
                            | true =>
                                simp only [htr, if_true, Except.ok.injEq,
                                  Prod.mk.injEq] at h
                                obtain ⟨hx, ht'⟩ := h
                                subst ht'
                                rw [gpfd_cons_present _ _ _ _ _
                                  (lookupKey_insertKey_self es a child'),
                                  gpfd_cons_present _ _ _ _ _ hl]
                                exact ih bs child x' child' hdiv' hndc hpop
                            | false =>
                                simp only [htr, Bool.false_eq_true, if_false,
                                  Except.ok.injEq, Prod.mk.injEq] at h
                                obtain ⟨hx, ht'⟩ := h
                                subst ht'
                                obtain ⟨es2, he2⟩ :=
                                  popDeprecatedKey_result_map _ _ _ _ hpop
                                subst he2
                                have hes2 : es2 = [] := pyTruthy_map_false es2 htr
                                subst hes2
                                rw [gpfd_cons_absent _ _ _ _
                                  (lookupKey_removeKey_self es a hnd),
                                  gpfd_cons_present _ _ _ _ _ hl]
                                exact (popDeprecatedKey_emptied (a2 :: as2) bs
                                  child x' hdiv' hndc hpop d).symm
                          · have hba : b ≠ a := fun hh => hab hh.symm
                            cases htr : pyTruthy child' with
                            | true =>
                                simp only [htr, if_true, Except.ok.injEq,
                                  Prod.mk.injEq] at h
                                obtain ⟨hx, ht'⟩ := h
                                subst ht'
                                have hlb : lookupKey (insertKey es a child') b
                                    = lookupKey es b :=
                                  lookupKey_insertKey_other es a b child' hba
                                cases hlb2 : lookupKey es b with
                                | some ch =>
                                    rw [gpfd_cons_present _ _ _ _ _ (hlb.trans hlb2),
                                      gpfd_cons_present _ _ _ _ _ hlb2]
                                | none =>
                                    rw [gpfd_cons_absent _ _ _ _ (hlb.trans hlb2),
                                      gpfd_cons_absent _ _ _ _ hlb2]
                            | false =>
                                simp only [htr, Bool.false_eq_true, if_false,
                                  Except.ok.injEq, Prod.mk.injEq] at h
                                obtain ⟨hx, ht'⟩ := h
                                subst ht'
                                have hlb : lookupKey (removeKey es a) b
                                    = lookupKey es b :=
                                  lookupKey_removeKey_other es a b hba
                                cases hlb2 : lookupKey es b with
                                | some ch =>
                                    rw [gpfd_cons_present _ _ _ _ _ (hlb.trans hlb2),
                                      gpfd_cons_present _ _ _ _ _ hlb2]
                                | none =>
                                    rw [gpfd_cons_absent _ _ _ _ (hlb.trans hlb2),
                                      gpfd_cons_absent _ _ _ _ hlb2]
              | attr a' => simp [popDeprecatedKey] at h
              | val w => simp [popDeprecatedKey] at h

/-- A pop never disturbs a structurally present node on a diverging path
(pruning only removes dicts it has emptied). -/
theorem popDeprecatedKey_frame_lookup (p q : List String) (t x t' y : PyVal)
    (hdiv : divergePaths p q = true) (hnd : nodupKeysRec t = true)
    (h : popDeprecatedKey t p = .ok (x, t'))
    (hq : lookupPathD t q = some y) : lookupPathD t' q = some y := by
  induction p generalizing q t x t' with
  | nil => simp [popDeprecatedKey] at h
  | cons a as_ ih =>
      cases q with
      | nil => simp [divergePaths] at hdiv
      | cons b bs =>
          cases as_ with
          | nil =>
              have hab : a ≠ b := by
                intro hh
                subst hh
                simp [divergePaths] at hdiv
              have hba : b ≠ a := fun hh => hab hh.symm
              cases t with
              | map es =>
                  simp only [popDeprecatedKey] at h
                  cases hl : lookupKey es a with
                  | none => simp [hl] at h
                  | some v =>
                      simp only [hl, Except.ok.injEq, Prod.mk.injEq] at h
                      obtain ⟨hx, ht'⟩ := h
                      subst ht'
                      simpa [lookupPathD, lookupKey_removeKey_other es a b hba]
                        using hq
              | attr a' => simp [popDeprecatedKey] at h
              | val w => simp [popDeprecatedKey] at h
          | cons a2 as2 =>
              cases t with
              | map es =>
                  simp only [popDeprecatedKey] at h
                  cases hl : lookupKey es a with
                  | none => simp [hl] at h
                  | some child =>
                      simp only [hl] at h
                      cases hpop : popDeprecatedKey child (a2 :: as2) with
                      | error e => rw [hpop] at h; cases h
                      | ok pr =>
                          obtain ⟨x', child'⟩ := pr
                          rw [hpop] at h
                          have hndc : nodupKeysRec child = true :=
                            nodup_lookup_child es a child hnd hl
                          by_cases hab : a = b
                          · subst hab
                            have hdiv' : divergePaths (a2 :: as2) bs = true := by
                              simpa [divergePaths] using hdiv
                            have hqc : lookupPathD child bs = some y := by
                              simpa [lookupPathD, hl] using hq
                            have hq' : lookupPathD child' bs = some y :=
                              ih bs child x' child' hdiv' hndc hpop hqc
                            cases htr : pyTruthy child' with
                            | true =>
                                simp only [htr, if_true, Except.ok.injEq,
                                  Prod.mk.injEq] at h
                                obtain ⟨hx, ht'⟩ := h
                                subst ht'
                                simpa [lookupPathD,
                                  lookupKey_insertKey_self es a child'] using hq'
                            | false =>
                                obtain ⟨es2, he2⟩ :=
                                  popDeprecatedKey_result_map _ _ _ _ hpop
                                subst he2
                                have hes2 : es2 = [] := pyTruthy_map_false es2 htr
                                subst hes2
                                cases bs with
                                | nil => simp [divergePaths] at hdiv'
                                | cons b2 bs2 => simp [lookupPathD, lookupKey] at hq'
                          · have hba : b ≠ a := fun hh => hab hh.symm
                            cases htr : pyTruthy child' with
                            | true =>
                                simp only [htr, if_true, Except.ok.injEq,
                                  Prod.mk.injEq] at h
                                obtain ⟨hx, ht'⟩ := h
                                subst ht'
                                simpa [lookupPathD,
                                  lookupKey_insertKey_other es a b child' hba]
                                  using hq
                            | false =>
                                simp only [htr, Bool.false_eq_true, if_false,
                                  Except.ok.injEq, Prod.mk.injEq] at h
                                obtain ⟨hx, ht'⟩ := h
                                subst ht'
                                simpa [lookupPathD,
                                  lookupKey_removeKey_other es a b hba] using hq
              | attr a' => simp [popDeprecatedKey] at h
              | val w => simp [popDeprecatedKey] at h

/-- A pop preserves key-distinctness of every dict. -/
theorem popDeprecatedKey_nodup (p : List String) (t x t' : PyVal)
    (hnd : nodupKeysRec t = true) (h : popDeprecatedKey t p = .ok (x, t')) :
    nodupKeysRec t' = true := by
  induction p generalizing t x t' with
  | nil => simp [popDeprecatedKey] at h
  | cons a as_ ih =>
      cases as_ with
      | nil =>
          cases t with
          | map es =>
              simp only [popDeprecatedKey] at h
              cases hl : lookupKey es a with
              | none => simp [hl] at h
              | some v =>
                  simp only [hl, Except.ok.injEq, Prod.mk.injEq] at h
                  obtain ⟨hx, ht'⟩ := h
                  subst ht'
                  exact nodupEntries_removeKey es a hnd
          | attr a' => simp [popDeprecatedKey] at h
          | val w => simp [popDeprecatedKey] at h
      | cons a2 as2 =>
          cases t with
          | map es =>
              simp only [popDeprecatedKey] at h
              cases hl : lookupKey es a with
              | none => simp [hl] at h
              | some child =>
                  simp only [hl] at h
                  cases hpop : popDeprecatedKey child (a2 :: as2) with
                  | error e => rw [hpop] at h; cases h
                  | ok pr =>
                      obtain ⟨x', child'⟩ := pr
                      rw [hpop] at h
                      have hndc : nodupKeysRec child = true :=
                        nodup_lookup_child es a child hnd hl
                      cases htr : pyTruthy child' with
                      | true =>
                          simp only [htr, if_true, Except.ok.injEq,
                            Prod.mk.injEq] at h
                          obtain ⟨hx, ht'⟩ := h
                          subst ht'
                          exact nodupEntries_insertKey es a child' hnd
                            (ih child x' child' hndc hpop)
                      | false =>
                          simp only [htr, Bool.false_eq_true, if_false,
                            Except.ok.injEq, Prod.mk.injEq] at h
                          obtain ⟨hx, ht'⟩ := h
                          subst ht'
                          exact nodupEntries_removeKey es a hnd
          | attr a' => simp [popDeprecatedKey] at h
          | val w => simp [popDeprecatedKey] at h

/-! ## Lemmas: the recursive merge `update` -/

theorem keyFresh_forall (es : List (String × PyVal)) (k : String)
    (h : keyFresh k es = true) : ∀ e ∈ es, e.1 ≠ k := by
  induction es with
  | nil => simp
  | cons e rest ih =>
      obtain ⟨k', v'⟩ := e
      by_cases hk : k' = k
      · simp [keyFresh, hk] at h
      · simp only [keyFresh, hk, if_false] at h
        intro e' he'
        rcases List.mem_cons.mp he' with h1 | h2
        · subst h1; exact hk
        · exact ih h e' h2

theorem lookup_none_forall (es : List (String × PyVal)) (k : String)
    (h : lookupKey es k = none) : ∀ e ∈ es, e.1 ≠ k := by
  induction es with
  | nil => simp
  | cons e rest ih =>
      obtain ⟨k', v'⟩ := e
      by_cases hk : k' = k
      · simp [lookupKey, hk] at h
      · simp only [lookupKey, hk, if_false] at h
        intro e' he'
        rcases List.mem_cons.mp he' with h1 | h2
        · subst h1; exact hk
        · exact ih h e' h2

/-- A merge into a dict yields a dict. -/
theorem updateEntries_ok_map (entries : List (String × PyVal)) (w : SysEnv)
    (es : List (String × PyVal)) (t' : PyVal)
    (h : updateEntries w (.map es) entries = .ok t') :
    ∃ es', t' = .map es' := by
  induction entries generalizing es with
  | nil =>
      simp only [updateEntries, Except.ok.injEq] at h
      exact ⟨es, h.symm⟩
  | cons e rest ih =>
      obtain ⟨k, v⟩ := e
      cases v with
      | map m =>
          simp only [updateEntries] at h
          cases hrec : updateEntries w ((lookupKey es k).getD (.map [])) m with
          | error e' => rw [hrec] at h; cases h
          | ok child' => rw [hrec] at h; exact ih _ h
      | attr a => simp only [updateEntries] at h; exact ih _ h
      | val v' => simp only [updateEntries] at h; exact ih _ h

/-- A merge leaves keys it does not mention untouched. -/
theorem updateEntries_frame (entries : List (String × PyVal)) (w : SysEnv)
    (es es' : List (String × PyVal)) (c : String)
    (hfr : ∀ e ∈ entries, e.1 ≠ c)
    (h : updateEntries w (.map es) entries = .ok (.map es')) :
    lookupKey es' c = lookupKey es c := by
  induction entries generalizing es with
  | nil =>
      simp only [updateEntries, Except.ok.injEq, PyVal.map.injEq] at h
      rw [h]
  | cons e rest ih =>
      obtain ⟨k, v⟩ := e
      have hk : k ≠ c := hfr (k, v) (by simp)
      have hck : c ≠ k := fun hh => hk hh.symm
      have hfr' : ∀ e ∈ rest, e.1 ≠ c := fun e he => hfr e (List.mem_cons_of_mem _ he)
      cases v with
      | map m =>
          simp only [updateEntries] at h
          cases hrec : updateEntries w ((lookupKey es k).getD (.map [])) m with
          | error e' => rw [hrec] at h; cases h
          | ok child' =>
              rw [hrec] at h
              exact (ih _ hfr' h).trans
                (lookupKey_insertKey_other es k c child' hck)
      | attr a =>
          simp only [updateEntries] at h
          exact (ih _ hfr' h).trans
            (lookupKey_insertKey_other es k c _ hck)
      | val v' =>
          simp only [updateEntries] at h
          exact (ih _ hfr' h).trans
            (lookupKey_insertKey_other es k c _ hck)

/-- When the merge source maps key `c` to a sub-mapping, the merged dict
holds at `c` the result of deep-merging that sub-mapping into the previous
child (an empty dict when the key was new). -/
theorem updateEntries_key_map (entries : List (String × PyVal)) (w : SysEnv)
    (es es' : List (String × PyVal)) (c : String) (m : List (String × PyVal))
    (hnd : nodupEntries entries = true)
    (hlk : lookupKey entries c = some (.map m))
    (h : updateEntries w (.map es) entries = .ok (.map es')) :
    ∃ child', updateEntries w ((lookupKey es c).getD (.map [])) m = .ok child'
      ∧ lookupKey es' c = some child' := by
  induction entries generalizing es with
  | nil => simp [lookupKey] at hlk
  | cons e rest ih =>
      obtain ⟨k, v⟩ := e
      simp only [nodupEntries, Bool.and_eq_true] at hnd
      by_cases hk : k = c
      · subst hk
        simp only [lookupKey, if_true, Option.some.injEq] at hlk
        subst hlk
        simp only [updateEntries] at h
        cases hrec : updateEntries w ((lookupKey es k).getD (.map [])) m with
        | error e' => rw [hrec] at h; cases h
        | ok child' =>
            rw [hrec] at h
            refine ⟨child', rfl, ?_⟩
            exact (updateEntries_frame rest w _ es' k
              (keyFresh_forall rest k hnd.1.1) h).trans
              (lookupKey_insertKey_self es k child')
      · have hck : c ≠ k := fun hh => hk hh.symm
        simp only [lookupKey, hk, if_false] at hlk
        cases v with
        | map m2 =>
            simp only [updateEntries] at h
            cases hrec : updateEntries w ((lookupKey es k).getD (.map [])) m2 with
            | error e' => rw [hrec] at h; cases h
            | ok child2 =>
                rw [hrec] at h
                obtain ⟨child', hc1, hc2⟩ := ih _ hnd.2 hlk h
                rw [lookupKey_insertKey_other es k c child2 hck] at hc1
                exact ⟨child', hc1, hc2⟩
        | attr a =>
            simp only [updateEntries] at h
            obtain ⟨child', hc1, hc2⟩ := ih _ hnd.2 hlk h
            rw [lookupKey_insertKey_other es k c _ hck] at hc1
            exact ⟨child', hc1, hc2⟩
        | val v' =>
            simp only [updateEntries] at h
            obtain ⟨child', hc1, hc2⟩ := ih _ hnd.2 hlk h
            rw [lookupKey_insertKey_other es k c _ hck] at hc1
            exact ⟨child', hc1, hc2⟩

/-- When the merge source maps key `c` to a non-mapping, the merged dict
holds its `resolveLeaf` resolution at `c` (overwriting whatever was
there). -/
theorem updateEntries_key_leaf (entries : List (String × PyVal)) (w : SysEnv)
    (es es' : List (String × PyVal)) (c : String) (lv : PyVal)
    (hnd : nodupEntries entries = true)
    (hleaf : notMap lv = true)
    (hlk : lookupKey entries c = some lv)
    (h : updateEntries w (.map es) entries = .ok (.map es')) :
    lookupKey es' c = some (resolveLeaf w lv) := by
  induction entries generalizing es with
  | nil => simp [lookupKey] at hlk
  | cons e rest ih =>
      obtain ⟨k, v⟩ := e
      simp only [nodupEntries, Bool.and_eq_true] at hnd
      by_cases hk : k = c
      · subst hk
        simp only [lookupKey, if_true, Option.some.injEq] at hlk
        subst hlk
        cases v with
        | map m => simp [notMap] at hleaf
        | attr a =>
            simp only [updateEntries] at h
            exact (updateEntries_frame rest w _ es' k
              (keyFresh_forall rest k hnd.1.1) h).trans
              (lookupKey_insertKey_self es k _)
        | val v' =>
            simp only [updateEntries] at h
            exact (updateEntries_frame rest w _ es' k
              (keyFresh_forall rest k hnd.1.1) h).trans
              (lookupKey_insertKey_self es k _)
      · simp only [lookupKey, hk, if_false] at hlk
        cases v with
        | map m2 =>
            simp only [updateEntries] at h
            cases hrec : updateEntries w ((lookupKey es k).getD (.map [])) m2 with
            | error e' => rw [hrec] at h; cases h
            | ok child2 => rw [hrec] at h; exact ih _ hnd.2 hlk h
        | attr a =>
            simp only [updateEntries] at h
            exact ih _ hnd.2 hlk h
        | val v' =>
            simp only [updateEntries] at h
            exact ih _ hnd.2 hlk h

/-- Merge precedence, writing side: a non-mapping value the source defines
at a (mapping-spine) leaf path ends up, resolved, at that path of the
merge result. -/
theorem update_src_leaf (comps : List String) (w : SysEnv) (u t t' v : PyVal)
    (hnds : nodupKeysRec u = true) (hleaf : notMap v = true)
    (hlk : lookupPathD u comps = some v) (h : update w t u = .ok t') :
    lookupPathD t' comps = some (resolveLeaf w v) := by
  induction comps generalizing u t t' with
  | nil =>
      simp only [lookupPathD, Option.some.injEq] at hlk
      cases u with
      | map entries =>
          subst hlk
          simp [notMap] at hleaf
      | attr a => simp [update] at h
      | val v' => simp [update] at h
  | cons c rest ih =>
      cases u with
      | map entries =>
          simp only [lookupPathD] at hlk
          cases hlc : lookupKey entries c with
          | none => rw [hlc] at hlk; cases hlk
          | some cu =>
              rw [hlc] at hlk
              simp only [update] at h
              have hentsne : entries ≠ [] := lookupKey_some_ne_nil entries c cu hlc
              have htm : ∃ es, t = .map es := by
                cases entries with
                | nil => exact absurd rfl hentsne
                | cons e r =>
                    obtain ⟨k, v'⟩ := e
                    cases t with
                    | map es => exact ⟨es, rfl⟩
                    | attr a => cases v' <;> simp [updateEntries] at h
                    | val vv => cases v' <;> simp [updateEntries] at h
              obtain ⟨es, hts⟩ := htm
              subst hts
              obtain ⟨es', ht's⟩ := updateEntries_ok_map entries w es t' h
              subst ht's
              have hnde : nodupEntries entries = true := by
                simpa [nodupKeysRec] using hnds
              cases cu with
              | map m =>
                  obtain ⟨child', hc1, hc2⟩ := updateEntries_key_map entries w
                    es es' c m hnde hlc h
                  have hndm : nodupKeysRec (.map m) = true :=
                    nodup_lookup_child entries c _ hnde hlc
                  have := ih (.map m) ((lookupKey es c).getD (.map [])) child'
                    hndm hlk (by simpa [update] using hc1)
                  simp [lookupPathD, hc2, this]
              | attr a =>
                  cases rest with
                  | nil =>
                      simp only [lookupPathD, Option.some.injEq] at hlk
                      subst hlk
                      have := updateEntries_key_leaf entries w es es' c
                        (.attr a) hnde (by simp [notMap]) hlc h
                      simp [lookupPathD, this]
                  | cons c2 rest2 => simp [lookupPathD] at hlk
              | val vv =>
                  cases rest with
                  | nil =>
                      simp only [lookupPathD, Option.some.injEq] at hlk
                      subst hlk
                      have := updateEntries_key_leaf entries w es es' c
                        (.val vv) hnde (by simp [notMap]) hlc h
                      simp [lookupPathD, this]
                  | cons c2 rest2 => simp [lookupPathD] at hlk
      | attr a => simp [lookupPathD] at hlk
      | val v' => simp [lookupPathD] at hlk

/-- Merge frame, reading side: on any path the source does not define
(a component missing from the source's mapping spine), the merge changes
nothing that a structural lookup can see. -/
theorem update_frame_missing (q : List String) (w : SysEnv) (u t t' : PyVal)
    (hnds : nodupKeysRec u = true) (hmiss : srcMissesPath u q = true)
    (h : update w t u = .ok t') : lookupPathD t' q = lookupPathD t q := by
  induction q generalizing u t t' with
  | nil => simp [srcMissesPath] at hmiss
  | cons c rest ih =>
      cases u with
      | map entries =>
          simp only [update] at h
          cases entries with
          | nil =>
              simp only [updateEntries, Except.ok.injEq] at h
              rw [h]
          | cons e0 r0 =>
              have htm : ∃ es, t = .map es := by
                obtain ⟨k, v'⟩ := e0
                cases t with
                | map es => exact ⟨es, rfl⟩
                | attr a => cases v' <;> simp [updateEntries] at h
                | val vv => cases v' <;> simp [updateEntries] at h
              obtain ⟨es, hts⟩ := htm
              subst hts
              obtain ⟨es', ht's⟩ := updateEntries_ok_map (e0 :: r0) w es t' h
              subst ht's
              have hnde : nodupEntries (e0 :: r0) = true := by
                simpa [nodupKeysRec] using hnds
              simp only [srcMissesPath] at hmiss
              cases hlc : lookupKey (e0 :: r0) c with
              | none =>
                  have hfr := lookup_none_forall (e0 :: r0) c hlc
                  have := updateEntries_frame (e0 :: r0) w es es' c hfr h
                  simp [lookupPathD, this]
              | some cu =>
                  rw [hlc] at hmiss
                  cases cu with
                  | map m =>
                      obtain ⟨child', hc1, hc2⟩ := updateEntries_key_map
                        (e0 :: r0) w es es' c m hnde hlc h
                      have hndm : nodupKeysRec (.map m) = true :=
                        nodup_lookup_child (e0 :: r0) c _ hnde hlc
                      have heq := ih (.map m) ((lookupKey es c).getD (.map []))
                        child' hndm hmiss (by simpa [update] using hc1)
                      cases hlc2 : lookupKey es c with
                      | some ch =>
                          rw [hlc2] at heq
                          simp [lookupPathD, hc2, heq, hlc2]
                      | none =>
                          rw [hlc2] at heq
                          have hrest : rest ≠ [] := by
                            cases rest with
                            | nil => simp [srcMissesPath] at hmiss
                            | cons _ _ => simp
                          have hnil : lookupPathD (.map ([] :
                              List (String × PyVal))) rest = none := by
                            cases rest with
                            | nil => exact absurd rfl hrest
                            | cons r1 r2 => simp [lookupPathD, lookupKey]
                          simp only [Option.getD_none] at heq
                          simp [lookupPathD, hc2, heq, hlc2, hnil]
                  | attr a =>
                      cases rest with
                      | nil => simp [srcMissesPath] at hmiss
                      | cons r1 r2 => simp [srcMissesPath] at hmiss
                  | val vv =>
                      cases rest with
                      | nil => simp [srcMissesPath] at hmiss
                      | cons r1 r2 => simp [srcMissesPath] at hmiss
      | attr a => simp [srcMissesPath] at hmiss
      | val v' => simp [srcMissesPath] at hmiss

/-- The merge itself never raises `ImproperlyConfigured` — its own failures
are `TypeError`/`AttributeError`. -/
theorem updateEntries_no_impc (w : SysEnv) :
    ∀ (entries : List (String × PyVal)) (root : PyVal) (e : PyErr),
      updateEntries w root entries = .error e → e ≠ .improperlyConfigured
  | [], root, e, h => by simp [updateEntries] at h
  | (k, .map m) :: rest, root, e, h => by
      cases root with
      | map es =>
          simp only [updateEntries] at h
          cases hrec : updateEntries w ((lookupKey es k).getD (.map [])) m with
          | error e' =>
              simp only [hrec, Except.error.injEq] at h
              exact h ▸ updateEntries_no_impc w m _ e' hrec
          | ok child' =>
              simp only [hrec] at h
              exact updateEntries_no_impc w rest _ e h
      | attr a =>
          simp only [updateEntries, Except.error.injEq] at h
          simp [← h]
      | val v' =>
          simp only [updateEntries, Except.error.injEq] at h
          simp [← h]
  | (k, .attr a) :: rest, root, e, h => by
      cases root with
      | map es =>
          simp only [updateEntries] at h
          exact updateEntries_no_impc w rest _ e h
      | attr a2 =>
          simp only [updateEntries, Except.error.injEq] at h
          simp [← h]
      | val v' =>
          simp only [updateEntries, Except.error.injEq] at h
          simp [← h]
  | (k, .val v0) :: rest, root, e, h => by
      cases root with
      | map es =>
          simp only [updateEntries] at h
          exact updateEntries_no_impc w rest _ e h
      | attr a2 =>
          simp only [updateEntries, Except.error.injEq] at h
          simp [← h]
      | val v' =>
          simp only [updateEntries, Except.error.injEq] at h
          simp [← h]

/-- `update` never raises `ImproperlyConfigured`. -/
theorem update_no_impc (w : SysEnv) (t u : PyVal) (e : PyErr)
    (h : update w t u = .error e) : e ≠ .improperlyConfigured := by
  cases u with
  | map entries =>
      simp only [update] at h
      exact updateEntries_no_impc w entries t e h
  | attr a =>
      simp only [update, Except.error.injEq] at h
      simp [← h]
  | val v =>
      simp only [update, Except.error.injEq] at h
      simp [← h]

/-- Splitting never yields an empty component list. -/
theorem pySplitChars_ne_nil (sep : Char) (cs : List Char) :
    pySplitChars sep cs ≠ [] := by
  cases cs with
  | nil => simp [pySplitChars]
  | cons c rest =>
      simp only [pySplitChars]
      split
      · simp
      · cases pySplitChars sep rest <;> simp

/-- A dotted path always has at least one component. -/
theorem pathComps_ne_nil (sep : Char) (s : String) : pathComps sep s ≠ [] := by
  unfold pathComps
  intro h
  exact pySplitChars_ne_nil sep s.data (List.map_eq_nil_iff.mp h)

/-! ## Concrete fixtures used by witnesses and counterexamples -/

/-- A world with no environment, no readable files, no JSON decoding. -/
def wEmpty : SysEnv := ⟨[], fun _ => none, fun _ => none⟩

/-- A tree holding a single int attribute at `a`. -/
def fixA : PyVal := .map [("a", .attr ⟨.int 1, .unspecified, none⟩)]

/-! ## Claims -/

/-- C4, counterexample: with a Value Cell stored at `a`, reading the path
`a.b` evaluates `"b" in Attr(1)` — a `TypeError` — instead of returning the
default: `get_path_from_dict` is not total and does not fall back to the
default when the current node is a non-mapping. -/
theorem c4_counterexample :
    get_path_from_dict fixA ("a.b") '.' (some (.val .pynone))
      = .error .typeError := rfl

/-- C4 (amended): the Path Accessor read is total and returns the default as
soon as a component is absent (or a falsy node is reached) — but only on
walks whose truthy nodes are all mappings; walking into a truthy
non-mapping (e.g. a Value Cell) raises instead of returning the default. -/
theorem c4_path_accessor_on_map_walks (root : PyVal) (path : String)
    (sep : Char) (d : Option PyVal)
    (h : safeWalk root (pathComps sep path) = true) :
    get_path_from_dict root path sep d =
      .ok (orDefault (lookupPathD root (pathComps sep path)) d) :=
  getPathComps_safeWalk root (pathComps sep path) d h

/-- C4 witness: on a mapping-only tree the accessor returns the default for
a missing key. -/
theorem c4_witness :
    get_path_from_dict (.map [("a", .map [("b",
        .attr ⟨.int 2, .unspecified, none⟩)])]) ("a.x") '.'
      (some (.val .pynone)) = .ok (some (.val .pynone)) :=
  c4_path_accessor_on_map_walks _ ("a.x") '.' (some (.val .pynone)) rfl

/-- C9: `ConfigLoader.get` is total only on paths addressing an `Attr` leaf
(returning its value) or absent paths (returning the default); a path
addressing an intermediate mapping node raises `AttributeError` — the
mapping has no `value` attribute to unwrap. -/
theorem c9_get_on_mapping_node (cfg : PyVal) (path : String) (d : Value) :
    (∀ es, lookupPathD cfg (pathComps '.' path) = some (.map es) →
      configGet cfg path d = .error .attributeError)
    ∧ (∀ a, lookupPathD cfg (pathComps '.' path) = some (.attr a) →
      configGet cfg path d = .ok a.value)
    ∧ (safeWalk cfg (pathComps '.' path) = true →
      lookupPathD cfg (pathComps '.' path) = none →
      configGet cfg path d = .ok d) := by
  refine ⟨?_, ?_, ?_⟩
  · intro es h
    simp [configGet, get_path_from_dict,
      getPathComps_of_lookup_some cfg _ _ _ h]
  · intro a h
    exact configGet_of_lookup_attr cfg path a d h
  · intro hsw hnone
    simp [configGet, get_path_from_dict,
      getPathComps_safeWalk cfg _ _ hsw, hnone, orDefault]

/-- C9 witness: `get("a")` on a tree where `a` holds a sub-mapping raises. -/
theorem c9_witness :
    configGet (.map [("a", .map [("b", .attr ⟨.int 1, .unspecified, none⟩)])])
      ("a") .pynone = .error .attributeError :=
  (c9_get_on_mapping_node _ ("a") .pynone).1 _ rfl

/-- C2, counterexample: the Python boolean `True` is not a string, yet
`get_bool` returns `True` for it (`str(True).lower() == "true"`), refuting
"for every non-string value get_bool returns False". -/
theorem c2_counterexample :
    get_bool (.map [("f", .attr ⟨.bool true, .unspecified, none⟩)]) ("f")
        (.bool false) = .ok true
    ∧ ∀ s, Value.bool true ≠ .str s :=
  ⟨rfl, by intro s h; cases h⟩

/-- C2 (amended): `get_bool` returns True exactly when the `str()` form of
the fetched value compares case-insensitively equal to `"true"`; this
includes non-string values whose string form is `"True"` — in particular
the boolean `True` — rather than all non-strings mapping to False. -/
theorem c2_get_bool_str_form (cfg : PyVal) (path : String) (dflt v : Value)
    (h : configGet cfg path dflt = .ok v) :
    get_bool cfg path dflt = .ok (pyLower (pyStr v) = "true")
    ∧ (get_bool cfg path dflt = .ok true ↔ pyLower (pyStr v) = "true") := by
  constructor
  · simp [get_bool, h]
  · simp [get_bool, h]

/-- C2 witness: an uppercase string compares true case-insensitively. -/
theorem c2_witness :
    get_bool (.map [("f", .attr ⟨.str ("TRUE"), .env, some ("f")⟩)]) ("f")
      (.bool false) = .ok true :=
  ((c2_get_bool_str_form (.map [("f", .attr ⟨.str ("TRUE"), .env, some ("f")⟩)])
    ("f") (.bool false) (.str ("TRUE")) rfl).2).mpr rfl

/-- C3, counterexample: a stored `None` makes `int(None)` raise `TypeError`,
which `get_int` does not catch (only `ValueError`), so `get_int` raises to
the caller instead of returning the default. -/
theorem c3_counterexample :
    get_int (.map [("p", .attr ⟨.pynone, .unspecified, none⟩)]) ("p") 9
      = .error .typeError := rfl

/-- C3 (amended): `get_int` returns the integer coercion when it succeeds;
when the coercion fails with `ValueError` (a non-numeric string) it logs a
warning and returns the caller-supplied default; but a coercion failure
raising `TypeError` (e.g. a stored `None`) propagates to the caller. -/
theorem c3_get_int_amended (cfg : PyVal) (path : String) (dflt : Int)
    (v : Value) (h : configGet cfg path (.int dflt) = .ok v) :
    (∀ n, pyInt v = .ok n → get_int cfg path dflt = .ok (n, []))
    ∧ (pyInt v = .error .valueError → get_int cfg path dflt =
        .ok (dflt, [⟨"warning", "Failed to parse config as int"⟩]))
    ∧ (pyInt v = .error .typeError →
        get_int cfg path dflt = .error .typeError) := by
  refine ⟨?_, ?_, ?_⟩
  · intro n hn
    simp [get_int, h, hn]
  · intro hv
    simp [get_int, h, hv]
  · intro hv
    simp [get_int, h, hv]

/-- C3 witness: a numeric string parses. -/
theorem c3_witness :
    get_int (.map [("p", .attr ⟨.str ("12"), .env, some ("p")⟩)]) ("p") 0
      = .ok (12, []) :=
  (c3_get_int_amended (.map [("p", .attr ⟨.str ("12"), .env, some ("p")⟩)])
    ("p") 0 (.str ("12")) rfl).1 12 rfl

/-- C7: `update_from_file` raises `ImproperlyConfigured` exactly when the
file's contents fail to parse as YAML (other exceptions the merge may raise
are different classes); a permission error on open logs a warning, returns
normally, and leaves the configuration tree unchanged. -/
theorem c7_update_from_file_errors (w : SysEnv) (res : OpenResult)
    (cfg : PyVal) :
    (update_from_file w res cfg = .error .improperlyConfigured ↔
      res = .yamlError)
    ∧ (res = .permissionDenied → update_from_file w res cfg =
        .ok (cfg, [⟨"warning", "Permission denied while reading file"⟩])) := by
  constructor
  · constructor
    · intro he
      cases res with
      | permissionDenied => simp [update_from_file] at he
      | yamlError => rfl
      | parsed doc =>
          simp only [update_from_file] at he
          cases hu : update w cfg doc with
          | error e' =>
              simp only [hu, Except.error.injEq] at he
              exact absurd he (update_no_impc w cfg doc e' hu)
          | ok cfg' => simp [hu] at he
    · intro hr
      subst hr
      rfl
  · intro hr
    subst hr
    rfl

/-- C7 witness: a permission-denied open warns and keeps the tree. -/
theorem c7_witness :
    update_from_file wEmpty .permissionDenied fixA =
      .ok (fixA, [⟨"warning", "Permission denied while reading file"⟩]) :=
  (c7_update_from_file_errors wEmpty .permissionDenied fixA).2 rfl

/-- C10: `ConfigLoader.set` stores `Attr(value)` with `unspecified` origin
and `None` detail, discarding any provenance previously at the path; a
patch over a provenanced cell therefore restores the get-visible value
inside an `unspecified`-origin cell, and a subsequent `refresh` of that
path is a no-op (its `source_type` is no longer `URI`). -/
theorem c10_set_discards_provenance (w : SysEnv) (cfg : PyVal) (path : String)
    (v x : Value) (st : Source) (src : Option String) (br : Bool) :
    (∀ cfg', configSet cfg path v = .ok cfg' →
      lookupPathD cfg' (pathComps '.' path) =
        some (.attr ⟨v, .unspecified, none⟩))
    ∧ (lookupPathD cfg (pathComps '.' path) = some (.attr ⟨x, st, src⟩) →
      ∀ cfg₂ br', patchRun cfg path v br = .ok (cfg₂, br') →
        lookupPathD cfg₂ (pathComps '.' path) =
          some (.attr ⟨x, .unspecified, none⟩)
        ∧ refresh w cfg₂ path = .ok cfg₂) := by
  constructor
  · intro cfg' h
    simp only [configSet, set_path_in_dict] at h
    exact setPathComps_lookup _ _ _ _ h
  · intro hlk cfg₂ br' hrun
    have hget : configGet cfg path .pynone = .ok x :=
      configGet_of_lookup_attr cfg path ⟨x, st, src⟩ .pynone hlk
    simp only [patchRun, hget] at hrun
    cases hs1 : configSet cfg path v with
    | error e => rw [hs1] at hrun; cases hrun
    | ok cfg₁ =>
        simp only [hs1] at hrun
        cases hs2 : configSet cfg₁ path x with
        | error e => rw [hs2] at hrun; cases hrun
        | ok cfg₂' =>
            simp only [hs2, Except.ok.injEq, Prod.mk.injEq] at hrun
            obtain ⟨hc, hb⟩ := hrun
            subst hc
            simp only [configSet, set_path_in_dict] at hs2
            have hl2 := setPathComps_lookup _ _ _ _ hs2
            refine ⟨hl2, ?_⟩
            have hres := getPathComps_of_lookup_some _ _ _ none hl2
            simp [refresh, get_path_from_dict, hres]

/-- C10 fixtures: a URI-sourced cell, and the same tree after a patch has
run over it. -/
def fixUri : PyVal := .map [("s", .attr ⟨.str ("old"), .uri, some ("env://S?d")⟩)]

/-- The tree left behind by `patch("s", "tmp")` on `fixUri`. -/
def fixUriRes : PyVal := .map [("s", .attr ⟨.str ("old"), .unspecified, none⟩)]

/-- C10 witness: patching a URI-sourced cell leaves an unspecified-origin
cell holding the same value, on which refresh does nothing. -/
theorem c10_witness :
    lookupPathD fixUriRes (pathComps '.' ("s")) =
      some (.attr ⟨.str ("old"), .unspecified, none⟩)
    ∧ refresh wEmpty fixUriRes ("s") = .ok fixUriRes :=
  (c10_set_discards_provenance wEmpty fixUri ("s") (.str ("tmp"))
    (.str ("old")) .uri (some ("env://S?d")) false).2 rfl fixUriRes false rfl

/-- C8: on a tree whose leaves are Value Cells, for every path at which
`get` is defined and every value, the patch context — whether its body
returns or raises, the `finally` clause runs either way — leaves `get` at
that path returning the pre-patch value. -/
theorem c8_patch_restores (cfg : PyVal) (path : String) (v orig : Value)
    (br : Bool) (hraw : noRawVals cfg = true)
    (hget : configGet cfg path .pynone = .ok orig) :
    ∃ cfg₂, patchRun cfg path v br = .ok (cfg₂, br)
      ∧ configGet cfg₂ path .pynone = .ok orig := by
  have hne := pathComps_ne_nil '.' path
  have hg : ∃ r, getPathComps cfg (pathComps '.' path)
      (some (.attr ⟨.pynone, .unspecified, none⟩)) = .ok r := by
    simp only [configGet, get_path_from_dict] at hget
    cases hres : getPathComps cfg (pathComps '.' path)
        (some (.attr ⟨.pynone, .unspecified, none⟩)) with
    | error e => rw [hres] at hget; cases hget
    | ok r => exact ⟨r, rfl⟩
  obtain ⟨r, hr⟩ := hg
  obtain ⟨cfg₁, h1⟩ := getOk_setOk (pathComps '.' path) cfg _ r
    (.attr ⟨v, .unspecified, none⟩) hraw hne hr
  obtain ⟨cfg₂, h2⟩ := setPathComps_again (pathComps '.' path) cfg cfg₁
    (.attr ⟨v, .unspecified, none⟩) (.attr ⟨orig, .unspecified, none⟩) h1
  refine ⟨cfg₂, ?_, ?_⟩
  · simp only [patchRun, hget, configSet, set_path_in_dict, h1, h2]
  · exact configGet_of_lookup_attr cfg₂ path ⟨orig, .unspecified, none⟩ .pynone
      (setPathComps_lookup _ _ _ _ h2)

/-- C8 witness: patching `a` and exiting (body raising) restores the value. -/
theorem c8_witness :
    patchRun fixA ("a") (.int 5) true = .ok (fixA, true)
    ∧ configGet fixA ("a") .pynone = .ok (.int 1) := by
  obtain ⟨c2, h1, h2⟩ := c8_patch_restores fixA ("a") (.int 5) (.int 1) true rfl rfl
  have hrfl : patchRun fixA ("a") (.int 5) true = .ok (fixA, true) := rfl
  rw [h1] at hrfl
  simp only [Except.ok.injEq, Prod.mk.injEq] at hrfl
  obtain ⟨hc, -⟩ := hrfl
  subst hc
  exact ⟨h1, h2⟩

/-- C5: merge precedence.  Merging `s1` then `s2` into a destination: a
non-mapping value `s2` defines at a leaf path ends up (resolved) at that
path of the final tree — the later source wins; and any path `s2` does not
define (a sibling key missing from `s2`'s mappings) is left exactly as the
first merge produced it, where a leaf defined by `s1` sits resolved.
(Key-distinctness of the sources is automatic for real Python dicts.) -/
theorem c5_merge_precedence (w : SysEnv) (dst s1 s2 t1 t2 : PyVal)
    (p q : List String) (vp vq : PyVal)
    (hnd1 : nodupKeysRec s1 = true) (hnd2 : nodupKeysRec s2 = true)
    (h1 : update w dst s1 = .ok t1) (h2 : update w t1 s2 = .ok t2)
    (hp2 : lookupPathD s2 p = some vp) (hpleaf : notMap vp = true)
    (hq1 : lookupPathD s1 q = some vq) (hqleaf : notMap vq = true)
    (hqmiss : srcMissesPath s2 q = true) :
    lookupPathD t2 p = some (resolveLeaf w vp)
    ∧ lookupPathD t2 q = lookupPathD t1 q
    ∧ lookupPathD t1 q = some (resolveLeaf w vq) :=
  ⟨update_src_leaf p w s2 t1 t2 vp hnd2 hpleaf hp2 h2,
   update_frame_missing q w s2 t1 t2 hnd2 hqmiss h2,
   update_src_leaf q w s1 dst t1 vq hnd1 hqleaf hq1 h1⟩

/-- C5 fixtures: two YAML-like sources and the two successive merge
results. -/
def fixS1 : PyVal := .map [("a", .map [("x", .val (.int 1)), ("y", .val (.int 2))])]

/-- Later source: overrides `a.x` only. -/
def fixS2 : PyVal := .map [("a", .map [("x", .val (.int 3))])]

/-- After merging `fixS1` into an empty tree. -/
def fixT1 : PyVal := .map [("a", .map [("x", .attr ⟨.int 1, .unspecified, none⟩),
  ("y", .attr ⟨.int 2, .unspecified, none⟩)])]

/-- After then merging `fixS2`. -/
def fixT2 : PyVal := .map [("a", .map [("x", .attr ⟨.int 3, .unspecified, none⟩),
  ("y", .attr ⟨.int 2, .unspecified, none⟩)])]

/-- C5 witness: `a.x` holds the later source's value, `a.y` the earlier
source's, untouched by the second merge. -/
theorem c5_witness :
    lookupPathD fixT2 ["a", "x"] = some (.attr ⟨.int 3, .unspecified, none⟩)
    ∧ lookupPathD fixT2 ["a", "y"] = lookupPathD fixT1 ["a", "y"]
    ∧ lookupPathD fixT1 ["a", "y"] = some (.attr ⟨.int 2, .unspecified, none⟩) :=
  c5_merge_precedence wEmpty (.map []) fixS1 fixS2 fixT1 fixT2
    ["a", "x"] ["a", "y"] (.val (.int 3)) (.val (.int 2))
    rfl rfl rfl rfl rfl rfl rfl rfl rfl

/-- `envOuter` depends only on the AUTHENTIK-prefixed variables. -/
theorem envOuter_filter (w : SysEnv) (l : List (String × String))
    (outer : PyVal) (idx : Nat) :
    envOuter w l outer idx =
      envOuter w (l.filter (fun e => pyStartsWith ("AUTHENTIK") e.1))
        outer idx := by
  induction l generalizing outer idx with
  | nil => rfl
  | cons e rest ih =>
      obtain ⟨k, raw⟩ := e
      cases hs : pyStartsWith ("AUTHENTIK") k with
      | true =>
          have hf : (((k, raw) :: rest).filter
              (fun e => pyStartsWith ("AUTHENTIK") e.1))
              = (k, raw) :: rest.filter (fun e => pyStartsWith ("AUTHENTIK") e.1) := by
            simp [List.filter_cons, hs]
          rw [hf]
          simp only [envOuter, hs, if_true]
          cases hset : setPathComps outer (pathComps '.' (deriveKey k))
              (.attr ⟨(w.jsonLoads raw).getD (.str raw), .env,
                some (deriveKey k)⟩) with
          | error e' => simp [hset]
          | ok outer' =>
              simp only [hset]
              exact ih outer' (idx + 1)
      | false =>
          have hf : (((k, raw) :: rest).filter
              (fun e => pyStartsWith ("AUTHENTIK") e.1))
              = rest.filter (fun e => pyStartsWith ("AUTHENTIK") e.1) := by
            simp [List.filter_cons, hs]
          rw [hf]
          simp only [envOuter, hs, Bool.false_eq_true, if_false]
          exact ih outer idx

/-- C6, counterexample: the environment variable `AUTHENTIK_FOO=bar`
(`"bar"` is not valid JSON, so the raw string is kept) is stored at `foo`
with origin `uri` and detail `"bar"` — the merge re-resolved the string
through `parse_uri` — not with origin `environment` and the dotted path. -/
theorem c6_counterexample :
    update_from_env ⟨[("AUTHENTIK_FOO", "bar")], fun _ => none, fun _ => none⟩
        (.map [])
      = .ok (.map [("foo", .attr ⟨.str ("bar"), .uri, some ("bar")⟩)],
             [⟨"debug", "Loaded environment variables"⟩])
    ∧ Source.uri ≠ Source.env :=
  ⟨rfl, by simp⟩

/-- C6 (amended): after `update_from_env` over an environment whose single
prefixed variable is `(key, raw)`, the cell at the derived dotted path has
origin `environment` with the dotted path as detail exactly when the
JSON-decoded (or raw) value is a non-string; a string value instead passes
through the URI Resolver during the merge and is stored with origin `uri`
and the raw string itself as detail. -/
theorem c6_env_provenance (w : SysEnv) (cfg cfg' : PyVal)
    (logs : List LogEntry) (key raw : String)
    (hone : w.environ.filter (fun e => pyStartsWith ("AUTHENTIK") e.1)
      = [(key, raw)])
    (hrun : update_from_env w cfg = .ok (cfg', logs)) :
    (∀ s, (w.jsonLoads raw).getD (.str raw) = .str s →
      lookupPathD cfg' (pathComps '.' (deriveKey key)) =
        some (.attr (parse_uri w s))
      ∧ (parse_uri w s).source_type = .uri
      ∧ (parse_uri w s).source = some s)
    ∧ (∀ v, (w.jsonLoads raw).getD (.str raw) = v → (∀ s, v ≠ .str s) →
      lookupPathD cfg' (pathComps '.' (deriveKey key)) =
        some (.attr ⟨v, .env, some (deriveKey key)⟩)) := by
  have hkpre : pyStartsWith ("AUTHENTIK") key = true := by
    have hm : (key, raw) ∈ w.environ.filter
        (fun e => pyStartsWith ("AUTHENTIK") e.1) := by
      rw [hone]
      simp
    exact (List.mem_filter.mp hm).2
  obtain ⟨outer, houter⟩ := setPathComps_fresh (pathComps '.' (deriveKey key))
    (.attr ⟨(w.jsonLoads raw).getD (.str raw), .env, some (deriveKey key)⟩)
    (pathComps_ne_nil '.' _)
  have henv : envOuter w w.environ (.map []) 0 = .ok (outer, 1) := by
    rw [envOuter_filter, hone]
    simp [envOuter, hkpre, houter]
  have hupd : update w cfg outer = .ok cfg' := by
    simp only [update_from_env, henv] at hrun
    cases hu : update w cfg outer with
    | error e => simp [hu] at hrun
    | ok c' =>
        simp only [hu] at hrun
        norm_num at hrun
        rw [hrun.1]
  have hlkout : lookupPathD outer (pathComps '.' (deriveKey key)) =
      some (.attr ⟨(w.jsonLoads raw).getD (.str raw), .env,
        some (deriveKey key)⟩) :=
    setPathComps_lookup _ _ _ _ houter
  have hndout : nodupKeysRec outer = true :=
    setPathComps_nodup (pathComps '.' (deriveKey key)) (.map []) outer
      (.attr ⟨(w.jsonLoads raw).getD (.str raw), .env, some (deriveKey key)⟩)
      rfl rfl houter
  have hmain := update_src_leaf (pathComps '.' (deriveKey key)) w outer cfg
    cfg'
    (.attr ⟨(w.jsonLoads raw).getD (.str raw), .env, some (deriveKey key)⟩)
    hndout rfl hlkout hupd
  constructor
  · intro s hs
    rw [hs] at hmain
    exact ⟨hmain, rfl, rfl⟩
  · intro v hv hvs
    rw [hv] at hmain
    cases v with
    | str s => exact absurd rfl (hvs s)
    | int n => exact hmain
    | bool b => exact hmain
    | pynone => exact hmain
    | unsetCls => exact hmain

/-- C6 witness: a JSON-decoded integer value keeps `environment` origin with
the dotted path as detail. -/
theorem c6_witness :
    lookupPathD (.map [("redis", .map [("port",
        .attr ⟨.int 6379, .env, some ("redis.port")⟩)])])
      (pathComps '.' (deriveKey ("AUTHENTIK_REDIS__PORT")))
      = some (.attr ⟨.int 6379, .env, some (deriveKey ("AUTHENTIK_REDIS__PORT"))⟩) :=
  (c6_env_provenance
    ⟨[("AUTHENTIK_REDIS__PORT", "6379")], fun _ => none,
      fun s => if s = "6379" then some (.int 6379) else none⟩
    (.map [])
    (.map [("redis", .map [("port", .attr ⟨.int 6379, .env, some ("redis.port")⟩)])])
    [⟨"debug", "Loaded environment variables"⟩]
    ("AUTHENTIK_REDIS__PORT") ("6379") rfl rfl).2 (.int 6379) rfl
    (by intro s h; cases h)

/-! ## Lemmas: `check_deprecations` -/

theorem divergePaths_symm (p q : List String) :
    divergePaths p q = divergePaths q p := by
  induction p generalizing q with
  | nil => cases q <;> simp [divergePaths]
  | cons a as_ ih =>
      cases q with
      | nil => simp [divergePaths]
      | cons b bs =>
          by_cases hab : a = b
          · subst hab
            simp [divergePaths, ih]
          · have hba : ¬b = a := fun hh => hab hh.symm
            simp [divergePaths, hab, hba]

/-- The pop returns exactly the object that a structural lookup of the path
finds. -/
theorem popDeprecatedKey_value (p : List String) (t x t' y : PyVal)
    (h : popDeprecatedKey t p = .ok (x, t'))
    (hlk : lookupPathD t p = some y) : x = y := by
  induction p generalizing t x t' with
  | nil => simp [popDeprecatedKey] at h
  | cons c rest ih =>
      cases rest with
      | nil =>
          cases t with
          | map es =>
              simp only [popDeprecatedKey] at h
              cases hl : lookupKey es c with
              | none => simp [hl] at h
              | some v =>
                  simp only [hl, Except.ok.injEq, Prod.mk.injEq] at h
                  simp only [lookupPathD, hl, Option.some.injEq] at hlk
                  exact h.1.symm.trans hlk
          | attr a => simp [popDeprecatedKey] at h
          | val w => simp [popDeprecatedKey] at h
      | cons c2 rest2 =>
          cases t with
          | map es =>
              simp only [popDeprecatedKey] at h
              cases hl : lookupKey es c with
              | none => simp [hl] at h
              | some child =>
                  simp only [hl] at h
                  cases hpop : popDeprecatedKey child (c2 :: rest2) with
                  | error e => rw [hpop] at h; cases h
                  | ok pr =>
                      obtain ⟨x', child'⟩ := pr
                      rw [hpop] at h
                      simp only [lookupPathD, hl] at hlk
                      cases htr : pyTruthy child' <;>
                        · simp only [htr, Bool.false_eq_true, if_false, if_true,
                            Except.ok.injEq, Prod.mk.injEq] at h
                          exact h.1 ▸ ih child x' child' hpop hlk
          | attr a => simp [popDeprecatedKey] at h
          | val w => simp [popDeprecatedKey] at h

/-- All distinct deprecation-table entries have pairwise diverging old/new
paths, every entry's own old and new paths diverge, and the table has no
duplicate entries. -/
theorem deprecations_paths_diverge :
    (∀ e1 ∈ DEPRECATIONS, ∀ e2 ∈ DEPRECATIONS, e1 ≠ e2 →
      divergePaths (pathComps '.' e1.1) (pathComps '.' e2.1) = true
      ∧ divergePaths (pathComps '.' e1.1) (pathComps '.' e2.2) = true
      ∧ divergePaths (pathComps '.' e1.2) (pathComps '.' e2.1) = true
      ∧ divergePaths (pathComps '.' e1.2) (pathComps '.' e2.2) = true)
    ∧ (∀ e ∈ DEPRECATIONS,
      divergePaths (pathComps '.' e.1) (pathComps '.' e.2) = true)
    ∧ DEPRECATIONS.Nodup := by decide

/-- Folding the table splits along list append. -/
theorem checkDepsGo_append (eventsOk : Bool)
    (l1 l2 : List (String × String)) (st : PyVal × List LogEntry) :
    checkDepsGo eventsOk (l1 ++ l2) st =
      match checkDepsGo eventsOk l1 st with
      | .error e => .error e
      | .ok st1 => checkDepsGo eventsOk l2 st1 := by
  induction l1 generalizing st with
  | nil => rfl
  | cons e rest ih =>
      obtain ⟨dep, repl⟩ := e
      simp only [List.cons_append, checkDepsGo]
      cases hs : checkDepStep eventsOk dep repl st with
      | error e' => rfl
      | ok st' => exact ih st'

/-- One table iteration whose old and new paths both diverge from `r` does
not change what the read accessor sees at `r`, preserves dict
key-distinctness, and only appends to the log. -/
theorem checkDepStep_frame (eventsOk : Bool) (dep repl : String)
    (r : List String) (st st' : PyVal × List LogEntry)
    (hd1 : divergePaths (pathComps '.' dep) r = true)
    (hd2 : divergePaths (pathComps '.' repl) r = true)
    (hnd : nodupKeysRec st.1 = true)
    (h : checkDepStep eventsOk dep repl st = .ok st') :
    (∀ d, getPathComps st'.1 r d = getPathComps st.1 r d)
    ∧ nodupKeysRec st'.1 = true
    ∧ ∃ tail, st'.2 = st.2 ++ tail := by
  obtain ⟨cfg, logs⟩ := st
  simp only [checkDepStep] at h
  cases hg : configGet cfg dep .unsetCls with
  | error e => rw [hg] at h; cases h
  | ok v =>
      simp only [hg] at h
      by_cases hv : v = Value.unsetCls
      · rw [if_pos hv] at h
        simp only [Except.ok.injEq] at h
        subst h
        exact ⟨fun d => rfl, hnd, ⟨[], by simp⟩⟩
      · rw [if_neg hv] at h
        by_cases he : eventsOk = false
        · rw [if_pos he] at h
          simp only [Except.ok.injEq] at h
          subst h
          exact ⟨fun d => rfl, hnd, ⟨_, rfl⟩⟩
        · rw [if_neg he] at h
          cases hpop : popDeprecatedKey cfg (pathComps '.' dep) with
          | error e => rw [hpop] at h; cases h
          | ok pr =>
              obtain ⟨popped, cfg₁⟩ := pr
              simp only [hpop] at h
              cases hav : attrValueOf popped with
              | error e => rw [hav] at h; cases h
              | ok av =>
                  simp only [hav] at h
                  cases hset : configSet cfg₁ repl av with
                  | error e => rw [hset] at h; cases h
                  | ok cfg₂ =>
                      simp only [hset, Except.ok.injEq] at h
                      subst h
                      simp only [configSet, set_path_in_dict] at hset
                      have hnd₁ : nodupKeysRec cfg₁ = true :=
                        popDeprecatedKey_nodup _ _ _ _ hnd hpop
                      refine ⟨?_, ?_, ⟨_, rfl⟩⟩
                      · intro d
                        exact (setPathComps_frame_gpfd _ r cfg₁ cfg₂ _ d
                          hd2 hset).trans
                          (popDeprecatedKey_frame_gpfd _ r cfg popped cfg₁ d
                            hd1 hnd hpop)
                      · exact setPathComps_nodup _ cfg₁ cfg₂ (.attr ⟨av, .unspecified, none⟩) hnd₁ rfl hset

/-- Folding iterations whose old and new paths all diverge from `r`
preserves the read at `r`, key-distinctness, and only appends logs. -/
theorem checkDepsGo_frame (eventsOk : Bool) (l : List (String × String))
    (r : List String) :
    ∀ (st st' : PyVal × List LogEntry),
    (∀ e ∈ l, divergePaths (pathComps '.' e.1) r = true
      ∧ divergePaths (pathComps '.' e.2) r = true) →
    nodupKeysRec st.1 = true →
    checkDepsGo eventsOk l st = .ok st' →
    (∀ d, getPathComps st'.1 r d = getPathComps st.1 r d)
    ∧ nodupKeysRec st'.1 = true
    ∧ ∃ tail, st'.2 = st.2 ++ tail := by
  induction l with
  | nil =>
      intro st st' _ hnd h
      simp only [checkDepsGo, Except.ok.injEq] at h
      subst h
      exact ⟨fun d => rfl, hnd, ⟨[], by simp⟩⟩
  | cons e rest ih =>
      intro st st' hdivs hnd h
      obtain ⟨dep, repl⟩ := e
      simp only [checkDepsGo] at h
      cases hs : checkDepStep eventsOk dep repl st with
      | error e' => rw [hs] at h; cases h
      | ok st1 =>
          rw [hs] at h
          obtain ⟨hdd, hdr⟩ := hdivs (dep, repl) (by simp)
          obtain ⟨hf1, hn1, t1, ht1⟩ :=
            checkDepStep_frame eventsOk dep repl r st st1 hdd hdr hnd hs
          obtain ⟨hf2, hn2, t2, ht2⟩ := ih st1 st'
            (fun e he => hdivs e (List.mem_cons_of_mem _ he)) hn1 h
          exact ⟨fun d => (hf2 d).trans (hf1 d), hn2,
            ⟨t1 ++ t2, by simp [ht2, ht1]⟩⟩

/-- One diverging table iteration preserves a structurally present node. -/
theorem checkDepStep_present (eventsOk : Bool) (dep repl : String)
    (r : List String) (st st' : PyVal × List LogEntry) (y : PyVal)
    (hd1 : divergePaths (pathComps '.' dep) r = true)
    (hd2 : divergePaths (pathComps '.' repl) r = true)
    (hnd : nodupKeysRec st.1 = true)
    (h : checkDepStep eventsOk dep repl st = .ok st')
    (hlk : lookupPathD st.1 r = some y) :
    lookupPathD st'.1 r = some y ∧ nodupKeysRec st'.1 = true := by
  obtain ⟨cfg, logs⟩ := st
  simp only [checkDepStep] at h
  cases hg : configGet cfg dep .unsetCls with
  | error e => rw [hg] at h; cases h
  | ok v =>
      simp only [hg] at h
      by_cases hv : v = Value.unsetCls
      · rw [if_pos hv] at h
        simp only [Except.ok.injEq] at h
        subst h
        exact ⟨hlk, hnd⟩
      · rw [if_neg hv] at h
        by_cases he : eventsOk = false
        · rw [if_pos he] at h
          simp only [Except.ok.injEq] at h
          subst h
          exact ⟨hlk, hnd⟩
        · rw [if_neg he] at h
          cases hpop : popDeprecatedKey cfg (pathComps '.' dep) with
          | error e => rw [hpop] at h; cases h
          | ok pr =>
              obtain ⟨popped, cfg₁⟩ := pr
              simp only [hpop] at h
              cases hav : attrValueOf popped with
              | error e => rw [hav] at h; cases h
              | ok av =>
                  simp only [hav] at h
                  cases hset : configSet cfg₁ repl av with
                  | error e => rw [hset] at h; cases h
                  | ok cfg₂ =>
                      simp only [hset, Except.ok.injEq] at h
                      subst h
                      simp only [configSet, set_path_in_dict] at hset
                      have hnd₁ : nodupKeysRec cfg₁ = true :=
                        popDeprecatedKey_nodup _ _ _ _ hnd hpop
                      have h1 : lookupPathD cfg₁ r = some y :=
                        popDeprecatedKey_frame_lookup _ r cfg popped cfg₁ y
                          hd1 hnd hpop hlk
                      refine ⟨?_, setPathComps_nodup _ cfg₁ cfg₂ (.attr ⟨av, .unspecified, none⟩) hnd₁ rfl hset⟩
                      rw [setPathComps_frame_lookup _ r cfg₁ cfg₂ _ hd2 hset]
                      exact h1

/-- Folding diverging iterations preserves a structurally present node. -/
theorem checkDepsGo_present (eventsOk : Bool) (l : List (String × String))
    (r : List String) :
    ∀ (st st' : PyVal × List LogEntry) (y : PyVal),
    (∀ e ∈ l, divergePaths (pathComps '.' e.1) r = true
      ∧ divergePaths (pathComps '.' e.2) r = true) →
    nodupKeysRec st.1 = true →
    checkDepsGo eventsOk l st = .ok st' →
    lookupPathD st.1 r = some y →
    lookupPathD st'.1 r = some y ∧ nodupKeysRec st'.1 = true := by
  induction l with
  | nil =>
      intro st st' y _ hnd h hlk
      simp only [checkDepsGo, Except.ok.injEq] at h
      subst h
      exact ⟨hlk, hnd⟩
  | cons e rest ih =>
      intro st st' y hdivs hnd h hlk
      obtain ⟨dep, repl⟩ := e
      simp only [checkDepsGo] at h
      cases hs : checkDepStep eventsOk dep repl st with
      | error e' => rw [hs] at h; cases h
      | ok st1 =>
          rw [hs] at h
          obtain ⟨hdd, hdr⟩ := hdivs (dep, repl) (by simp)
          obtain ⟨hl1, hn1⟩ := checkDepStep_present eventsOk dep repl r
            st st1 y hdd hdr hnd hs hlk
          exact ih st1 st' y
            (fun e he => hdivs e (List.mem_cons_of_mem _ he)) hn1 h hl1

/-- The iteration for an entry whose old path holds an `Attr`: it pops the
old path (reads there now yield the default), sets the popped scalar —
provenance-stripped — at the new path, and appends the warning. -/
theorem checkDepStep_establishes (dep repl : String) (cfg : PyVal)
    (logs : List LogEntry) (st' : PyVal × List LogEntry) (a : AttrData)
    (hdiv : divergePaths (pathComps '.' dep) (pathComps '.' repl) = true)
    (hnd : nodupKeysRec cfg = true)
    (hlk : lookupPathD cfg (pathComps '.' dep) = some (.attr a))
    (hvu : a.value ≠ .unsetCls)
    (h : checkDepStep true dep repl (cfg, logs) = .ok st') :
    (∀ d, getPathComps st'.1 (pathComps '.' dep) d = .ok d)
    ∧ lookupPathD st'.1 (pathComps '.' repl) =
        some (.attr ⟨a.value, .unspecified, none⟩)
    ∧ nodupKeysRec st'.1 = true
    ∧ st'.2 = logs ++ [⟨"warning", depMessage dep repl⟩] := by
  have hg : configGet cfg dep .unsetCls = .ok a.value :=
    configGet_of_lookup_attr cfg dep a .unsetCls hlk
  simp only [checkDepStep, hg] at h
  rw [if_neg hvu] at h
  simp only [Bool.true_eq_false, if_false] at h
  cases hpop : popDeprecatedKey cfg (pathComps '.' dep) with
  | error e => rw [hpop] at h; cases h
  | ok pr =>
      obtain ⟨popped, cfg₁⟩ := pr
      simp only [hpop] at h
      have hpx : popped = .attr a :=
        popDeprecatedKey_value _ cfg popped cfg₁ _ hpop hlk
      subst hpx
      simp only [attrValueOf] at h
      cases hset : configSet cfg₁ repl a.value with
      | error e => rw [hset] at h; cases h
      | ok cfg₂ =>
          simp only [hset, Except.ok.injEq] at h
          subst h
          simp only [configSet, set_path_in_dict] at hset
          have hnd₁ : nodupKeysRec cfg₁ = true :=
            popDeprecatedKey_nodup _ _ _ _ hnd hpop
          refine ⟨?_, ?_, ?_, rfl⟩
          · intro d
            rw [setPathComps_frame_gpfd _ (pathComps '.' dep) cfg₁ cfg₂ _ d
              (by rw [divergePaths_symm]; exact hdiv) hset]
            exact popDeprecatedKey_gpfd_default _ cfg _ cfg₁ hnd hpop d
          · exact setPathComps_lookup _ _ _ _ hset
          · exact setPathComps_nodup _ cfg₁ cfg₂
              (.attr ⟨a.value, .unspecified, none⟩) hnd₁ rfl hset

/-- C1, counterexample: when importing the audit-event module raises
`ImportError` during `check_deprecations` (the state of affairs while the
process-wide `CONFIG` is being constructed at import time), the `continue`
in the handler skips the migration: construction completes, the warning is
logged, but `get("geoip")` still returns the old value and the new path is
absent — contradicting the claim that every present old value is popped
and re-set at load completion. -/
theorem c1_counterexample :
    check_deprecations false
        (.map [("geoip", .attr ⟨.str ("/g"), .config_file, some ("f")⟩)])
      = .ok (.map [("geoip", .attr ⟨.str ("/g"), .config_file, some ("f")⟩)],
        [⟨"warning", depMessage ("geoip") ("events.context_processors.geoip")⟩])
    ∧ configGet (.map [("geoip", .attr ⟨.str ("/g"), .config_file, some ("f")⟩)])
        ("geoip") .pynone = .ok (.str ("/g"))
    ∧ configGet (.map [("geoip", .attr ⟨.str ("/g"), .config_file, some ("f")⟩)])
        ("events.context_processors.geoip") .pynone = .ok .pynone :=
  ⟨rfl, rfl, rfl⟩

/-- C1 (amended): provided the audit-event import succeeds (no
`ImportError`), `check_deprecations` migrates every table entry whose old
path holds a present Value Cell: afterwards `get(old)` returns the default
(the old path was popped, empty parents pruned), `get(new)` returns the
underlying scalar that was at the old path, and the deprecation warning
appears in the log.  When the import raises `ImportError`, the iteration
`continue`s after the warning and the value is not moved
(`c1_counterexample`). -/
theorem c1_deprecation_migration (cfg cfg' : PyVal) (logs : List LogEntry)
    (dep repl : String) (a : AttrData)
    (hmem : (dep, repl) ∈ DEPRECATIONS)
    (hnd : nodupKeysRec cfg = true)
    (hlk : lookupPathD cfg (pathComps '.' dep) = some (.attr a))
    (hvu : a.value ≠ .unsetCls)
    (hrun : check_deprecations true cfg = .ok (cfg', logs)) :
    (∀ d, configGet cfg' dep d = .ok d)
    ∧ (∀ d, configGet cfg' repl d = .ok a.value)
    ∧ LogEntry.mk "warning" (depMessage dep repl) ∈ logs := by
  obtain ⟨L1, L2, hD⟩ := List.append_of_mem hmem
  have hnodupD := deprecations_paths_diverge.2.2
  rw [hD, List.nodup_append] at hnodupD
  have hne1 : (dep, repl) ∉ L1 := fun hmem1 =>
    hnodupD.2.2 hmem1 (by simp)
  have hne2 : (dep, repl) ∉ L2 := (List.nodup_cons.mp hnodupD.2.1).1
  have hrun' := hrun
  rw [check_deprecations, hD, checkDepsGo_append] at hrun'
  cases h1 : checkDepsGo true L1 (cfg, []) with
  | error e => rw [h1] at hrun'; cases hrun'
  | ok st1 =>
      simp only [h1] at hrun'
      simp only [checkDepsGo] at hrun'
      cases h2 : checkDepStep true dep repl st1 with
      | error e => rw [h2] at hrun'; cases hrun'
      | ok st2 =>
          simp only [h2] at hrun'
          have hdA : ∀ e ∈ L1,
              divergePaths (pathComps '.' e.1) (pathComps '.' dep) = true
              ∧ divergePaths (pathComps '.' e.2) (pathComps '.' dep) = true := by
            intro e he
            have heD : e ∈ DEPRECATIONS := by
              rw [hD]
              exact List.mem_append_left _ he
            have hne : e ≠ (dep, repl) := fun hh => hne1 (hh ▸ he)
            have hf := deprecations_paths_diverge.1 e heD (dep, repl) hmem hne
            exact ⟨hf.1, hf.2.2.1⟩
          obtain ⟨hlk1, hnd1⟩ := checkDepsGo_present true L1
            (pathComps '.' dep) (cfg, []) st1 (.attr a) hdA hnd h1 hlk
          have hdiventry :=
            deprecations_paths_diverge.2.1 (dep, repl) hmem
          obtain ⟨habs, hnew, hnd2, hlogs2⟩ := checkDepStep_establishes dep
            repl st1.1 st1.2 st2 a hdiventry hnd1 hlk1 hvu h2
          have hdB : ∀ e ∈ L2, e ∈ DEPRECATIONS ∧ e ≠ (dep, repl) := by
            intro e he
            refine ⟨?_, fun hh => hne2 (hh ▸ he)⟩
            rw [hD]
            exact List.mem_append_right _ (List.mem_cons_of_mem _ he)
          have hdB1 : ∀ e ∈ L2,
              divergePaths (pathComps '.' e.1) (pathComps '.' dep) = true
              ∧ divergePaths (pathComps '.' e.2) (pathComps '.' dep) = true := by
            intro e he
            have hf := deprecations_paths_diverge.1 e (hdB e he).1 (dep, repl)
              hmem (hdB e he).2
            exact ⟨hf.1, hf.2.2.1⟩
          have hdB2 : ∀ e ∈ L2,
              divergePaths (pathComps '.' e.1) (pathComps '.' repl) = true
              ∧ divergePaths (pathComps '.' e.2) (pathComps '.' repl) = true := by
            intro e he
            have hf := deprecations_paths_diverge.1 e (hdB e he).1 (dep, repl)
              hmem (hdB e he).2
            exact ⟨hf.2.1, hf.2.2.2⟩
          obtain ⟨hfB1, -, tB, htB⟩ := checkDepsGo_frame true L2
            (pathComps '.' dep) st2 (cfg', logs) hdB1 hnd2 hrun'
          obtain ⟨hfB2, -, -⟩ := checkDepsGo_frame true L2
            (pathComps '.' repl) st2 (cfg', logs) hdB2 hnd2 hrun'
          refine ⟨?_, ?_, ?_⟩
          · intro d
            have hgd := (hfB1 (some (.attr ⟨d, .unspecified, none⟩))).trans
              (habs (some (.attr ⟨d, .unspecified, none⟩)))
            simp [configGet, get_path_from_dict, hgd]
          · intro d
            have hgp := getPathComps_of_lookup_some st2.1
              (pathComps '.' repl) _ (some (.attr ⟨d, .unspecified, none⟩)) hnew
            have hgd := (hfB2 (some (.attr ⟨d, .unspecified, none⟩))).trans hgp
            simp [configGet, get_path_from_dict, hgd]
          · have : logs = st2.2 ++ tB := htB
            rw [this, hlogs2]
            simp

/-- C1 fixtures: a tree holding a deprecated key next to a sibling key. -/
def fixDepM : PyVal := .map [("redis", .map [("cache_timeout",
  .attr ⟨.int 300, .config_file, some ("f")⟩),
  ("db", .attr ⟨.int 0, .unspecified, none⟩)])]

/-- `fixDepM` after the migration ran. -/
def fixDepM2 : PyVal := .map [("redis", .map [("db",
  .attr ⟨.int 0, .unspecified, none⟩)]),
  ("cache", .map [("timeout", .attr ⟨.int 300, .unspecified, none⟩)])]

/-- C1 witness: with the import succeeding, `redis.cache_timeout` is moved
to `cache.timeout` (sibling `redis.db` kept), and the warning is logged. -/
theorem c1_witness :
    configGet fixDepM2 ("redis.cache_timeout") (.int 7) = .ok (.int 7)
    ∧ configGet fixDepM2 ("cache.timeout") .pynone = .ok (.int 300)
    ∧ LogEntry.mk "warning"
        (depMessage ("redis.cache_timeout") ("cache.timeout"))
      ∈ [LogEntry.mk "warning"
          (depMessage ("redis.cache_timeout") ("cache.timeout"))] := by
  have h := c1_deprecation_migration fixDepM fixDepM2
    [⟨"warning", depMessage ("redis.cache_timeout") ("cache.timeout")⟩]
    ("redis.cache_timeout") ("cache.timeout")
    ⟨.int 300, .config_file, some ("f")⟩
    (by decide) rfl rfl (by decide) rfl
  exact ⟨h.1 _, h.2.1 _, h.2.2⟩

end AuthentikConfig
